import Mathlib

/-!
Verification of the template-substitution and batch-archive-generation
pipeline of the worker (`generateOutputsZip` and its helpers in
`src/functions/telegram.js` and `src/unnamed/part_000`).

Modelling conventions for the shallow embedding:
* JS strings are modelled as Lean `String` (a list of characters);
  `s.length` models the JS `.length` used by the code.  The JS case
  conversions `toUpperCase()` / `toLowerCase()` are string-valued: each
  character maps to a character *sequence*, which for a few characters of
  Unicode's special-casing data is longer than one character (most
  prominently `'ß'.toUpperCase() = "SS"`).  The model (`jsUpperCharL`,
  `jsLowerCharL`) records that expansion for the characters the proofs
  exercise and is the single-character `Char.toUpper` / `Char.toLower`
  map elsewhere; on ASCII characters — the only ones several theorems
  rely on — the JS conversion provably coincides with the ASCII map.
* JSON values are a tree type `Json`; JS objects are association lists in
  insertion order (property assignment updates in place or appends, as in
  JS).  Property access with the non-numeric keys the code uses returns
  `none` on non-objects, matching `undefined`.
* The external archive codec (fflate `unzipSync` / `zipSync`) is abstracted:
  an archive is identified with its entry mapping (name → bytes); entry
  bytes are opaque and modelled as `String`.  `JSON.stringify` is modelled
  by the concrete serializer `serializeJson` (its exact output is never
  relied upon).  `JSON.parse` of the fetched template and `unzipSync` of
  the fetched bytes are part of the external world (`World`), as is the
  one `fetch` of the template and the injected progress sink.
* `Math.random()`-driven draws are supplied by a per-unit oracle
  `RandPick`; a draw of an integer in `[0, k)` is modelled as `x % k`.
* A thrown JS error is an `Except.error`; the error kinds follow the
  classification of the failure sites (template-fetch site, format /
  validation sites, strict-mode `TypeError` on property assignment to a
  non-object, and a rejection coming from the progress sink).
-/

namespace Worker

/-- Code points of the JS `\s` / `trim()` whitespace class. -/
def WS_CODES : List Nat :=
  [9, 10, 11, 12, 13, 32, 160, 0x1680, 0x2000, 0x2001, 0x2002, 0x2003,
   0x2004, 0x2005, 0x2006, 0x2007, 0x2008, 0x2009, 0x200a, 0x2028, 0x2029,
   0x202f, 0x205f, 0x3000, 0xfeff]

/-- JS whitespace test (`\s`, also the class trimmed by `trim()`). -/
def jsIsWs (c : Char) : Bool := WS_CODES.contains c.toNat

/-- `trim()` on the character list: drop leading and trailing whitespace. -/
def trimL (l : List Char) : List Char :=
  ((l.dropWhile jsIsWs).reverse.dropWhile jsIsWs).reverse

/-- JS `String.prototype.trim`. -/
def jsTrim (s : String) : String := String.mk (trimL s.data)

/-- Decimal digits of `n`, most significant first, with `fuel ≥ n` (model of
the JS number-to-string conversion used in template literals). -/
def natToDecCore : Nat → Nat → List Char
  | _, 0 => []
  | 0, _ + 1 => []
  | fuel + 1, n + 1 =>
    natToDecCore fuel ((n + 1) / 10) ++ [Char.ofNat (48 + (n + 1) % 10)]

/-- Decimal digit list of a natural number. -/
def natToDecL (n : Nat) : List Char :=
  if n = 0 then ['0'] else natToDecCore n n

/-- JS decimal rendering of a natural number (`String(n)`, `` `${n}` ``). -/
def natToDec (n : Nat) : String := String.mk (natToDecL n)

/-- Value of a digit list, used to invert `natToDecL`. -/
def decValL (l : List Char) : Nat :=
  l.foldl (fun a c => 10 * a + (c.toNat - 48)) 0

/-- JS decimal rendering of an integer (only used inside the serializer). -/
def intToDec (n : Int) : String :=
  if n < 0 then "-" ++ natToDec n.natAbs else natToDec n.toNat

/-- `String.prototype.padStart(w, c)`. -/
def padStart (s : String) (w : Nat) (c : Char) : String :=
  if w ≤ s.length then s
  else String.mk (List.replicate (w - s.length) c) ++ s

/-- `String(x).padStart(3, "0")` for `x : Nat`. -/
def pad3 (n : Nat) : String := padStart (natToDec n) 3 '0'

/-- `String(x).padStart(6, "0")` for `x : Nat`. -/
def pad6 (n : Nat) : String := padStart (natToDec n) 6 '0'

/-- JS `toUpperCase()` of a single character, as a character sequence.
Unicode special casing makes the conversion multi-character for a few
characters; the model records `'ß' ↦ "SS"` (the case the counterexample
uses) and is the single-character ASCII-range map `Char.toUpper`
elsewhere.  On ASCII input the JS conversion is exactly `[c.toUpper]`. -/
def jsUpperCharL (c : Char) : List Char :=
  if c = 'ß' then ['S', 'S'] else [c.toUpper]

/-- JS `toLowerCase()` of a single character, as a character sequence.
The model records the multi-character lowering of `'İ'` (U+0130 ↦
`"i̇"`) and is the single-character ASCII-range map `Char.toLower`
elsewhere.  On ASCII input the JS conversion is exactly `[c.toLower]`. -/
def jsLowerCharL (c : Char) : List Char :=
  if c = 'İ' then ['i', '̇'] else [c.toLower]

/-- Title-casing of one word (`x.charAt(0).toUpperCase() +
x.slice(1).toLowerCase()`): the first character's uppercase sequence
followed by the concatenated lowercase sequences of the rest.  The words
fed to it are never empty because `titleCase` trims first. -/
def capWordL : List Char → List Char
  | [] => []
  | c :: rest => jsUpperCharL c ++ (rest.map jsLowerCharL).flatten

/-- Splitter behind `split(/\s+/)`: maximal non-whitespace runs.  On a
trimmed string (the only strings `titleCase` splits) this agrees exactly
with the JS `split(/\s+/)`, which would otherwise add empty fragments for
leading separators. -/
def wordsAux : List Char → List Char → List (List Char)
  | [], acc => if acc = [] then [] else [acc.reverse]
  | c :: rest, acc =>
    if jsIsWs c then
      if acc = [] then wordsAux rest [] else acc.reverse :: wordsAux rest []
    else wordsAux rest (c :: acc)

/-- Whitespace-delimited words of a character list. -/
def wordsL (l : List Char) : List (List Char) := wordsAux l []

/-- Join a word list with single spaces (`.join(" ")`). -/
def joinWords : List (List Char) → List Char
  | [] => []
  | [w] => w
  | w :: v :: rest => w ++ ' ' :: joinWords (v :: rest)

/-- `titleCase` from the source: trim; empty gives `""`; otherwise split on
whitespace runs, uppercase each word's first character and lowercase the
rest, and join with single spaces. -/
def titleCase (s : String) : String :=
  let t := jsTrim s
  if t = "" then ""
  else String.mk (joinWords ((wordsL t.data).map capWordL))

/-- The characters removed by `sanitizeFilename`'s first regex. -/
def STRIP_CHARS : List Char := ['\\', '/', ':', '*', '?', '\"', '<', '>', '|']

/-- One pass of `replace(/\s+/g, " ")`: each maximal whitespace run becomes
a single space.  The flag records whether the previous character was part
of a whitespace run. -/
def collapseWsAux : Bool → List Char → List Char
  | _, [] => []
  | prevWs, c :: rest =>
    if jsIsWs c then
      if prevWs then collapseWsAux true rest
      else ' ' :: collapseWsAux true rest
    else c :: collapseWsAux false rest

/-- `replace(/\s+/g, " ")` on a character list. -/
def collapseWsL (l : List Char) : List Char := collapseWsAux false l

/-- `sanitizeFilename` from the source: trim, then delete the stripped
characters, then collapse whitespace runs; `"output"` if empty; truncate
to 80 characters. -/
def sanitizeFilename (name : String) : String :=
  let n1 := jsTrim name
  let n2 := String.mk (n1.data.filter (fun c => !STRIP_CHARS.contains c))
  let n3 := String.mk (collapseWsL n2.data)
  let n4 := if n3 = "" then "output" else n3
  if n4.length > 80 then String.mk (n4.data.take 80) else n4

/-- Sanitization in the order the spec sentence lists the operations
(strip, then collapse, then trim); used to compare the spec's wording with
the source's `sanitizeFilename`. -/
def sanitizeSpecOrder (name : String) : String :=
  let n1 := String.mk (name.data.filter (fun c => !STRIP_CHARS.contains c))
  let n2 := String.mk (collapseWsL n1.data)
  let n3 := jsTrim n2
  let n4 := if n3 = "" then "output" else n3
  if n4.length > 80 then String.mk (n4.data.take 80) else n4

/-- JSON tree (the parsed descriptor).  Numbers are modelled as integers:
the only number the pipeline writes is a string length, and the pipeline
never computes with the template's numbers. -/
inductive Json where
  | null : Json
  | bool (b : Bool) : Json
  | num (n : Int) : Json
  | str (s : String) : Json
  | arr (elems : List Json) : Json
  | obj (fields : List (String × Json)) : Json

/-- First binding of a key in an association list (JS property read). -/
def objGet {β : Type} : List (String × β) → String → Option β
  | [], _ => none
  | (k', v) :: rest, k => if k' = k then some v else objGet rest k

/-- Whether an association list binds a key (JS `"k" in o` for objects). -/
def objHasKey {β : Type} : List (String × β) → String → Bool
  | [], _ => false
  | (k', _) :: rest, k => if k' = k then true else objHasKey rest k

/-- Overwrite every binding of a key, keeping positions (JS assignment to
an existing property). -/
def objSetIn {β : Type} : List (String × β) → String → β → List (String × β)
  | [], _, _ => []
  | (k', v') :: rest, k, v =>
    if k' = k then (k', v) :: objSetIn rest k v else (k', v') :: objSetIn rest k v

/-- JS property assignment on an association list: update in place if the
key exists, else append the new binding. -/
def objSet {β : Type} (fs : List (String × β)) (k : String) (v : β) :
    List (String × β) :=
  if objHasKey fs k then objSetIn fs k v else fs ++ [(k, v)]

/-- JS property read `j[k]` for the non-numeric keys the code uses:
defined on objects, `undefined` (`none`) on everything else. -/
def jsGet : Json → String → Option Json
  | .obj fs, k => objGet fs k
  | _, _ => none

/-- `Object.entries`-style view used to model `Object.keys(block)`
iteration: fields of an object, indexed elements of an array, nothing for
primitives. -/
def jsEntries : Json → List (String × Json)
  | .obj fs => fs
  | .arr xs => xs.enum.map (fun p => (natToDec p.1, p.2))
  | _ => []

/-- JS truthiness of a possibly-absent value (`!x` negated). -/
def jsTruthy : Option Json → Bool
  | none => false
  | some .null => false
  | some (.bool b) => b
  | some (.num n) => !(n = 0)
  | some (.str s) => !(s = "")
  | some (.arr _) => true
  | some (.obj _) => true

/-- One entry of an interval block: if it is an object carrying
`textsIntervalsEnd`, overwrite that field with the new length
(`interval && typeof interval === "object" && "textsIntervalsEnd" in
interval`). -/
def updateInterval (len : Int) : Json → Json
  | .obj fs =>
    if objHasKey fs "textsIntervalsEnd"
    then .obj (objSetIn fs "textsIntervalsEnd" (.num len))
    else .obj fs
  | j => j

/-- One auxiliary block: when it is object-like (`block && typeof block ===
"object"`), rewrite every entry reachable by `Object.keys`. -/
def updateBlock (len : Int) : Json → Json
  | .obj fs => .obj (fs.map (fun p => (p.1, updateInterval len p.2)))
  | .arr xs => .arr (xs.map (updateInterval len))
  | j => j

/-- Field-wise action of `updateIntervals` on a layer object: only the two
auxiliary keys are touched. -/
def updateIntervalsField (len : Int) (p : String × Json) : String × Json :=
  if p.1 = "textTextColor" ∨ p.1 = "textTextFont"
  then (p.1, updateBlock len p.2) else p

/-- `updateIntervals(layer, newText)` from the source: for each of the two
auxiliary keys, if present and object-like, set every interval entry's
`textsIntervalsEnd` to `newText.length`; everything absent is skipped. -/
def updateIntervals (layer : Json) (newText : String) : Json :=
  match layer with
  | .obj fs => .obj (fs.map (updateIntervalsField (newText.length : Int)))
  | j => j

/-- Structured form of the status strings passed to the progress sink:
the initial download message, the per-unit `✨ Generating… i/total`
message, and the final packing message.  The rendering of these strings is
injective, so events stand in for the strings. -/
inductive Event where
  | download : Event
  | generating (i total : Nat) : Event
  | packing : Event
deriving DecidableEq

/-- Thrown errors, classified by their site: the template-fetch site
(`TemplateFetchError` in the spec), the unzip/parse/validation sites
(`FormatError`), a strict-mode `TypeError` raised by assigning a property
of a non-object (a JS array would accept the assignment; templates whose
layers are arrays are outside this model), and a rejection propagating out
of a progress-sink invocation. -/
inductive GenError where
  | templateFetch (msg : String)
  | format (msg : String)
  | typeError (msg : String)
  | sinkFail (e : Event)
deriving DecidableEq

/-- `layer.textTextString = newText; updateIntervals(layer, newText)` —
the per-layer substitution step. -/
def substituteLayer (layer : Json) (newText : String) : Except GenError Json :=
  match layer with
  | .obj fs =>
    .ok (updateIntervals (Json.obj (objSet fs "textTextString" (.str newText))) newText)
  | _ => .error (.typeError "cannot assign textTextString of a non-object layer")

/-- Built-in first-name pool. -/
def FIRST_NAMES : List String :=
  ["Ahsan", "Arafat", "Arif", "Asif", "Aziz", "Fahim", "Farhan", "Faysal",
   "Hasan", "Imran", "Ismail", "Jahid", "Jamal", "Kamal", "Mahmud", "Mehedi",
   "Moin", "Monir", "Naim", "Nayeem", "Rafi", "Rahim", "Raihan", "Rashed",
   "Rifat", "Ridoy", "Sabbir", "Saif", "Sajid", "Sakib", "Salman", "Sami",
   "Shafi", "Shahriar", "Shakil", "Tanvir", "Tareq", "Yasin", "Zahid",
   "Zubair", "Nafis", "Fardin", "Tahmid", "Muntasir", "Aminul", "Shihab",
   "Rakib", "Shuvo", "Sohel", "Mahfuz", "Anwar", "Ruhul", "Bashir", "Kabir",
   "Ibrahim", "Hridoy", "Parvez", "Sifat", "Towhid", "Shadman", "Ayesha",
   "Farzana", "Faria", "Fariha", "Jannat", "Jui", "Lamia", "Maliha", "Mim",
   "Mitu", "Nafisa", "Nusrat", "Purnima", "Raisa", "Rima", "Ritu", "Sabina",
   "Sadia", "Sanjida", "Shirin", "Sumaiya", "Tahmina", "Tanjila", "Tania",
   "Zannat", "Jahanara", "Mariya", "Muna", "Rukaiya", "Sultana", "Sharmin",
   "Sabrina", "Nabila", "Nowrin", "Umme", "Rabeya", "Moushumi", "Taslima",
   "Afsana", "Ishika", "Tanisha", "Anannya", "Sreya", "Puja", "Madhuri",
   "Nandini", "Rituparna", "Oishi", "Anik", "Aritra", "Arpan", "Debashish",
   "Dip", "Niloy", "Pranto", "Rupok", "Sourav", "Subrata", "Rony", "Joy",
   "Sohan", "Ayon", "Pritom", "Raiyan", "Sanjit"]

/-- Built-in last-name pool. -/
def LAST_NAMES : List String :=
  ["Ahmed", "Akter", "Ali", "Amin", "Arefin", "Bhuiyan", "Chowdhury",
   "Faruque", "Haque", "Hasan", "Hossain", "Islam", "Jahan", "Khan",
   "Mahmood", "Miah", "Mollah", "Mostafa", "Rahman", "Rashid", "Sarker",
   "Siddique", "Sikder", "Sultana", "Uddin", "Talukder", "Sheikh", "Matin",
   "Karim", "Kazi", "Sayeed", "Nizam", "Alam", "Kabir", "Mamun", "Shah",
   "Naser", "Tasnim", "Das", "Dey", "Roy", "Saha", "Sarkar", "Mondal",
   "Paul", "Biswas", "Barman", "Ghosh", "Chakraborty", "Bhattacharya",
   "Banerjee", "Mitra", "Sen", "Deb", "Datta", "Pal", "Majumder"]

/-- `rand(arr)` = `arr[Math.floor(Math.random() * arr.length)]`, with the
random draw supplied as an oracle value reduced mod the pool size. -/
def rand (xs : List String) (draw : Nat) : String := xs.getD (draw % xs.length) ""

/-- The immutable per-batch generation options collected by the wizard. -/
structure GenOptions where
  count : Nat
  firstMode : String
  fixedFirst : String
  lastMode : String
  fixedLast : String
  text2 : String

/-- Oracle for one unit's `Math.random()` draws: first/last pool indices,
the two three-digit groups of `text1`, and the six-digit core of `text3`. -/
structure RandPick where
  firstIdx : Nat
  lastIdx : Nat
  t1a : Nat
  t1b : Nat
  t3 : Nat

/-- First name of one unit: title-cased fixed value, or a pool draw. -/
def makeFirst (opts : GenOptions) (r : RandPick) : String :=
  if opts.firstMode = "fixed" then titleCase opts.fixedFirst
  else rand FIRST_NAMES r.firstIdx

/-- Last name of one unit: title-cased fixed value with falsy (empty)
default `"Ahmed"` (`options.fixedLast || "Ahmed"`), or a pool draw. -/
def makeLast (opts : GenOptions) (r : RandPick) : String :=
  if opts.lastMode = "fixed" then
    titleCase (if opts.fixedLast = "" then "Ahmed" else opts.fixedLast)
  else rand LAST_NAMES r.lastIdx

/-- `` `${first} ${last}`.trim() `` for one unit. -/
def makeFullName (opts : GenOptions) (r : RandPick) : String :=
  jsTrim (makeFirst opts r ++ " " ++ makeLast opts r)

/-- `randomText1()` = `` `451-XXX-YYY` `` with zero-padded draws. -/
def makeText1 (r : RandPick) : String :=
  "451-" ++ pad3 (r.t1a % 1000) ++ "-" ++ pad3 (r.t1b % 1000)

/-- `options.text2 || "15/11/2025"`. -/
def makeText2 (opts : GenOptions) : String :=
  if opts.text2 = "" then "15/11/2025" else opts.text2

/-- `randomText3()` = `` `NSU-RCPT-NNNNNNF` `` with a zero-padded draw. -/
def makeText3 (r : RandPick) : String :=
  "NSU-RCPT-" ++ pad6 (r.t3 % 1000000) ++ "F"

/-- JSON string quoting for the serializer. -/
def escChar (c : Char) : List Char :=
  if c = '\"' then ['\\', '\"']
  else if c = '\\' then ['\\', '\\']
  else if c = '\n' then ['\\', 'n']
  else if c = '\r' then ['\\', 'r']
  else if c = '\t' then ['\\', 't']
  else [c]

/-- Quoted JSON string literal. -/
def quoteStr (s : String) : String :=
  String.mk ('\"' :: (s.data.map escChar).flatten ++ ['\"'])

mutual

/-- Model of `JSON.stringify` on the descriptor tree (compact output, as
`JSON.stringify(proj)` / `JSON.stringify(proj, null, 0)` produce).  Its
exact output is never relied upon: the pipeline only stores it as the
descriptor entry's bytes. -/
def serializeJson : Json → String
  | .null => "null"
  | .bool true => "true"
  | .bool false => "false"
  | .num n => intToDec n
  | .str s => quoteStr s
  | .arr xs => "[" ++ serializeArr xs ++ "]"
  | .obj fs => "\x7b" ++ serializeObjFields fs ++ "\x7d"

/-- Comma-separated serialization of array elements. -/
def serializeArr : List Json → String
  | [] => ""
  | [x] => serializeJson x
  | x :: y :: rest => serializeJson x ++ "," ++ serializeArr (y :: rest)

/-- Comma-separated serialization of object fields. -/
def serializeObjFields : List (String × Json) → String
  | [] => ""
  | [p] => quoteStr p.1 ++ ":" ++ serializeJson p.2
  | p :: q :: rest =>
    quoteStr p.1 ++ ":" ++ serializeJson p.2 ++ "," ++ serializeObjFields (q :: rest)

end

/-- Entry mapping of an archive: name → opaque bytes.  The external codec
(fflate) is abstracted by identifying an archive with its entry mapping. -/
abbrev EntryMap := List (String × String)

/-- The outer output collection: allocated filename → inner archive. -/
abbrev OutMap := List (String × EntryMap)

/-- The sequence `b.textK.textTextString = v; updateIntervals(b.textK, v)`
over a list of (layer key, new text) pairs, threading the mutated bundle. -/
def substAll : Json → List (String × String) → Except GenError Json
  | b, [] => .ok b
  | b, (k, text) :: rest =>
    match b with
    | .obj fs =>
      match objGet fs k with
      | some layer =>
        match substituteLayer layer text with
        | .ok layer' => substAll (Json.obj (objSet fs k layer')) rest
        | .error e => .error e
      | none => .error (.typeError ("layer " ++ k ++ " is undefined"))
    | _ => .error (.typeError "objectsBundle is not an object")

/-- The body of one loop iteration up to filename allocation: clone the
base descriptor (value semantics), build the record, substitute the four
layers, and produce the unit's entry mapping `{ ...files, "data.plab":
strToU8(JSON.stringify(proj)) }` together with the unit's full name. -/
def genUnit (files : EntryMap) (baseProj : Json) (opts : GenOptions)
    (r : RandPick) : Except GenError (String × EntryMap) :=
  let fullName := makeFullName opts r
  let t1 := makeText1 r
  let t2 := makeText2 opts
  let t3 := makeText3 r
  match jsGet baseProj "objectsBundle" with
  | none => .error (.typeError "objectsBundle is undefined")
  | some bundle =>
    match substAll bundle
        [("text0", fullName), ("text1", t1), ("text2", t2), ("text3", t3)] with
    | .error e => .error e
    | .ok bundle' =>
      match baseProj with
      | .obj projFields =>
        let proj' := Json.obj (objSet projFields "objectsBundle" bundle')
        .ok (fullName, objSet files "data.plab" (serializeJson proj'))
      | _ => .error (.typeError "descriptor is not an object")

/-- The suffixed candidate `` `${base}_${n}.plp` ``. -/
def mkSuffixed (base : String) (n : Nat) : String :=
  base ++ "_" ++ natToDec n ++ ".plp"

/-- The `while (used.has(...)) n++` search for the first free suffix,
driven by fuel; `used.length + 1` candidates always contain a free one. -/
def findSuffix (used : List String) (base : String) : Nat → Nat → Nat
  | 0, n => n
  | fuel + 1, n =>
    if mkSuffixed base n ∈ used then findSuffix used base fuel (n + 1) else n

/-- Filename allocation for one unit: sanitized base plus `.plp`, with the
first unused `_n` (n ≥ 2) suffix on collision. -/
def allocate (used : List String) (fullName : String) : String :=
  let base := sanitizeFilename fullName
  let cand := base ++ ".plp"
  if cand ∈ used then mkSuffixed base (findSuffix used base (used.length + 1) 2)
  else cand

/-- The progress condition of the loop: `i === 1 || i === count ||
i % Math.max(1, Math.floor(count / 10)) === 0`. -/
def progressCond (total i : Nat) : Bool :=
  i == 1 || i == total || i % (max 1 (total / 10)) == 0

/-- The generating events the loop attempts for unit indices
`[i, i + left)`. -/
def genEvents (total i left : Nat) : List Event :=
  ((List.range' i left).filter (progressCond total)).map
    (fun j => Event.generating j total)

/-- External collaborators of one batch run: the one template fetch
(`none` models an unreachable source / network rejection, otherwise an
HTTP status and body), fflate's `unzipSync` on the fetched bytes (`none`
models an unpack failure), and `JSON.parse` of the descriptor entry
(`none` models a syntax error). -/
structure World where
  fetch : Option (Nat × String)
  unzip : String → Option EntryMap
  parse : String → Option Json

/-- The worker environment binding used by the pipeline. -/
structure Env where
  templateUrl : String

/-- `Response.ok`: status in the inclusive range 200–299. -/
def statusOk (status : Nat) : Bool := 200 ≤ status && status ≤ 299

/-- `fetchTemplateBytes` from the source: reject when `TEMPLATE_URL` is
unset/blank after trimming, when the fetch itself rejects, or when the
response status is not ok. -/
def fetchTemplateBytes (w : World) (env : Env) : Except GenError String :=
  if jsTrim env.templateUrl = "" then .error (.templateFetch "TEMPLATE_URL not set")
  else
    match w.fetch with
    | none => .error (.templateFetch "template source unreachable")
    | some (status, body) =>
      if statusOk status then .ok body
      else .error (.templateFetch ("Failed to fetch template: " ++ natToDec status))

/-- The four required layer names. -/
def LAYER_KEYS : List String := ["text0", "text1", "text2", "text3"]

/-- The first `k` with `!baseProj.objectsBundle?.[k]` truthy-failing, if
any: the layer named by the validation error. -/
def firstMissingLayer (baseProj : Json) : Option String :=
  LAYER_KEYS.find? (fun k => !jsTruthy ((jsGet baseProj "objectsBundle").bind (jsGet · k)))

/-- Unzip the template, locate and parse `data.plab`, and check the four
required layers (validation happens once per batch). -/
def validateTemplate (w : World) (bytes : String) :
    Except GenError (EntryMap × Json) :=
  match w.unzip bytes with
  | none => .error (.format "invalid template archive")
  | some files =>
    match objGet files "data.plab" with
    | none => .error (.format "Template missing data.plab")
    | some entry =>
      match w.parse entry with
      | none => .error (.format "data.plab is not valid JSON")
      | some baseProj =>
        match firstMissingLayer baseProj with
        | some k => .error (.format ("Template missing layer " ++ k))
        | none => .ok (files, baseProj)

/-- The `for (let i = 1; i <= options.count; i++)` loop: per unit, build
the record and inner archive, allocate a unique filename into the shared
`used` set, append to the output collection, and attempt a progress-sink
invocation at the progress cadence.  The event list records every sink
invocation attempted; a sink rejection propagates as an error, aborting
the loop. -/
def genLoop (files : EntryMap) (baseProj : Json) (opts : GenOptions)
    (rnd : Nat → RandPick) (sink : Event → Bool) :
    Nat → Nat → List String → OutMap → List Event →
    List Event × Except GenError OutMap
  | 0, _, _, out, evts => (evts, .ok out)
  | left + 1, i, used, out, evts =>
    match genUnit files baseProj opts (rnd i) with
    | .error e => (evts, .error e)
    | .ok (fullName, inner) =>
      let name := allocate used fullName
      let used' := used ++ [name]
      let out' := out ++ [(name, inner)]
      if progressCond opts.count i then
        if sink (.generating i opts.count) then
          genLoop files baseProj opts rnd sink left (i + 1) used' out'
            (evts ++ [.generating i opts.count])
        else (evts ++ [.generating i opts.count], .error (.sinkFail (.generating i opts.count)))
      else genLoop files baseProj opts rnd sink left (i + 1) used' out' evts

/-- `generateOutputsZip(env, options, progressCb)` from the source: notify
the sink of the download, fetch, validate once, run the unit loop, notify
the sink of the packing step, and return the outer archive (identified
with its entry mapping).  Every attempted sink invocation is recorded in
the returned event list, and any thrown error aborts the run with no
output. -/
def generateOutputsZip (w : World) (env : Env) (opts : GenOptions)
    (rnd : Nat → RandPick) (sink : Event → Bool) :
    List Event × Except GenError OutMap :=
  if sink .download then
    match fetchTemplateBytes w env with
    | .error e => ([.download], .error e)
    | .ok bytes =>
      match validateTemplate w bytes with
      | .error e => ([.download], .error e)
      | .ok (files, baseProj) =>
        match genLoop files baseProj opts rnd sink opts.count 1 [] [] [.download] with
        | (evts, .error e) => (evts, .error e)
        | (evts, .ok out) =>
          if sink .packing then (evts ++ [.packing], .ok out)
          else (evts ++ [.packing], .error (.sinkFail .packing))
  else ([.download], .error (.sinkFail .download))

/-- Whether an `Except` is a success. -/
def exceptIsOk {ε α : Type} : Except ε α → Bool
  | .ok _ => true
  | .error _ => false

/-- Concrete descriptor with all four required layers and some interval
blocks, used to instantiate theorems on a fully concrete run. -/
def goodDescriptor : Json :=
  Json.obj [("objectsBundle", Json.obj
    [("text0", Json.obj
       [("textTextString", Json.str "Old Name"),
        ("textTextColor", Json.obj
          [("0", Json.obj [("textsIntervalsStart", Json.num 0),
                           ("textsIntervalsEnd", Json.num 8)])])]),
     ("text1", Json.obj [("textTextString", Json.str "451-000-000")]),
     ("text2", Json.obj [("textTextString", Json.str "15/11/2025")]),
     ("text3", Json.obj
       [("textTextString", Json.str "NSU-RCPT-000000F"),
        ("textTextFont", Json.obj
          [("0", Json.obj [("textsIntervalsEnd", Json.num 16)])])])])]

/-- Concrete descriptor whose objects bundle lacks `text0`. -/
def badDescriptor : Json :=
  Json.obj [("objectsBundle", Json.obj
    [("text1", Json.obj [("textTextString", Json.str "a")]),
     ("text2", Json.obj [("textTextString", Json.str "b")]),
     ("text3", Json.obj [("textTextString", Json.str "c")])])]

/-- Concrete unpacked template: the descriptor entry plus one opaque
payload entry. -/
def templateFiles : EntryMap := [("data.plab", "DESC"), ("img0.png", "PNGBYTES")]

/-- World with a reachable template that validates. -/
def goodWorld : World :=
  ⟨some (200, "TPLBYTES"),
   fun b => if b = "TPLBYTES" then some templateFiles else none,
   fun s => if s = "DESC" then some goodDescriptor else none⟩

/-- World whose template descriptor lacks the `text0` layer. -/
def badLayerWorld : World :=
  ⟨some (200, "TPLBYTES"),
   fun b => if b = "TPLBYTES" then some templateFiles else none,
   fun s => if s = "DESC" then some badDescriptor else none⟩

/-- World whose template fetch rejects (unreachable source). -/
def noFetchWorld : World := ⟨none, fun _ => none, fun _ => none⟩

/-- Environment with a non-blank template source location. -/
def envOk : Env := ⟨"https://example.com/template.plp"⟩

/-- Fixed-name options for a two-unit batch: both units get the same full
name, forcing a filename collision. -/
def optsFixed2 : GenOptions := ⟨2, "fixed", "ann", "fixed", "lee", "01/01/2030"⟩

/-- Fixed-name options for a one-unit batch. -/
def optsFixed1 : GenOptions := ⟨1, "fixed", "ahsan", "fixed", "khan", "01/01/2030"⟩

/-- Constant random oracle. -/
def rnd0 : Nat → RandPick := fun _ => ⟨0, 0, 0, 0, 0⟩

/-- Progress sink that always succeeds. -/
def sinkOk : Event → Bool := fun _ => true

/-- Progress sink that always fails (its rejection is uncaught). -/
def sinkBad : Event → Bool := fun _ => false

/-- Concrete layer used to instantiate the substitution invariant. -/
def sampleLayer : Json :=
  Json.obj [("textTextString", Json.str "Old"),
    ("textTextColor", Json.obj
      [("0", Json.obj [("textsIntervalsStart", Json.num 0),
                       ("textsIntervalsEnd", Json.num 3)])])]

/-- Interval fields of `sampleLayer`'s color block after substituting
`"hello"`. -/
def sampleFS : List (String × Json) :=
  [("textsIntervalsStart", Json.num 0), ("textsIntervalsEnd", Json.num 5)]

/-- `sampleLayer`'s color block after substituting `"hello"`. -/
def sampleBlock : Json := Json.obj [("0", Json.obj sampleFS)]

/-- `sampleLayer` after substituting `"hello"`. -/
def sampleLayerSub : Json :=
  Json.obj [("textTextString", Json.str "hello"), ("textTextColor", sampleBlock)]

theorem data_mk (l : List Char) : (String.mk l).data = l := rfl

theorem length_mk (l : List Char) : (String.mk l).length = l.length := rfl

theorem mk_data (s : String) : String.mk s.data = s := rfl

theorem mk_inj {l m : List Char} (h : String.mk l = String.mk m) : l = m := by
  have := congrArg String.data h
  simpa using this

/-- Characters of a collapsed list are either spaces or original characters. -/
theorem mem_collapseWsAux {c : Char} :
    ∀ (flag : Bool) (l : List Char), c ∈ collapseWsAux flag l → c = ' ' ∨ c ∈ l := by
  intro flag l
  induction l generalizing flag with
  | nil => simp [collapseWsAux]
  | cons a rest ih =>
    intro h
    simp only [collapseWsAux] at h
    by_cases hws : jsIsWs a
    · simp only [hws, if_true] at h
      cases flag with
      | true =>
        simp only [if_true] at h
        rcases ih true h with h' | h'
        · exact Or.inl h'
        · exact Or.inr (List.mem_cons_of_mem _ h')
      | false =>
        simp only [Bool.false_eq_true, if_false, List.mem_cons] at h
        rcases h with h | h
        · exact Or.inl h
        · rcases ih true h with h' | h'
          · exact Or.inl h'
          · exact Or.inr (List.mem_cons_of_mem _ h')
    · simp only [hws, Bool.false_eq_true, if_false, List.mem_cons] at h
      rcases h with h | h
      · exact Or.inr (h ▸ List.mem_cons_self _ _)
      · rcases ih false h with h' | h'
        · exact Or.inl h'
        · exact Or.inr (List.mem_cons_of_mem _ h')

/-- C6 (corrected): the sanitizer strips the nine forbidden characters and
bounds the result at 80 characters, and the spec's examples hold —
including the corrected boundary behaviour `sanitize(": a") = " a"`,
where trimming happens before stripping, so the space exposed by the
stripped `:` is kept. -/
theorem c6_sanitize_amended :
    (∀ name : String, ∀ c ∈ (sanitizeFilename name).data, c ∉ STRIP_CHARS) ∧
    (∀ name : String, (sanitizeFilename name).length ≤ 80) ∧
    sanitizeFilename "Ann:Marie/Lee" = "AnnMarieLee" ∧
    sanitizeFilename "   " = "output" ∧
    (sanitizeFilename (String.mk (List.replicate 100 'a'))).length = 80 ∧
    sanitizeFilename ": a" = " a" := by
  have shape : ∀ name : String, ∃ l : List Char, sanitizeFilename name = String.mk l ∧
      l.length ≤ 80 ∧ ∀ c ∈ l, c ∉ STRIP_CHARS := by
    intro name
    have hmain : ∀ d : Char,
        d ∈ collapseWsL ((jsTrim name).data.filter (fun x => !STRIP_CHARS.contains x)) →
        d ∉ STRIP_CHARS := by
      intro d hd hmem
      rcases mem_collapseWsAux false _ hd with h | h
      · subst h; revert hmem; decide
      · have h2 := List.of_mem_filter h
        simp [List.elem_iff, hmem] at h2
    set m := collapseWsL ((jsTrim name).data.filter (fun x => !STRIP_CHARS.contains x)) with hm
    set n4 : String := if String.mk m = "" then "output" else String.mk m with hn4
    have hsan : sanitizeFilename name =
        if n4.length > 80 then String.mk (n4.data.take 80) else n4 := rfl
    have hn4chars : ∀ d ∈ n4.data, d ∉ STRIP_CHARS := by
      rw [hn4]
      split
      · intro d hd
        have : d ∈ ['o', 'u', 't', 'p', 'u', 't'] := hd
        fin_cases this <;> decide
      · exact hmain
    rw [hsan]
    by_cases h80 : n4.length > 80
    · rw [if_pos h80]
      refine ⟨n4.data.take 80, rfl, ?_, fun c hc => hn4chars c (List.mem_of_mem_take hc)⟩
      simp [List.length_take]
    · rw [if_neg h80]
      exact ⟨n4.data, (mk_data n4).symm,
        by have h : n4.length = n4.data.length := rfl; omega, hn4chars⟩
  refine ⟨?_, ?_, by decide, by decide, by decide, by decide⟩
  · intro name c hc
    obtain ⟨l, hl, _, hchars⟩ := shape name
    rw [hl] at hc
    exact hchars c hc
  · intro name
    obtain ⟨l, hl, hlen, _⟩ := shape name
    rw [hl, length_mk]
    exact hlen

/-- C6 witness: the sanitizer kept a space in `sanitize(": a")`, and the
space is indeed not one of the stripped characters. -/
theorem c6_sanitize_amended_witness :
    ' ' ∈ (sanitizeFilename ": a").data ∧ ' ' ∉ STRIP_CHARS :=
  ⟨by decide, c6_sanitize_amended.1 ": a" ' ' (by decide)⟩

/-- C6 counterexample: on the input `": a"` the code returns `" a"`, while
the claimed strip-collapse-trim pipeline returns the trimmed `"a"`; the
code's output is not trimmed of leading whitespace. -/
theorem c6_sanitize_counterexample :
    sanitizeFilename ": a" = " a" ∧ sanitizeSpecOrder ": a" = "a" ∧
    sanitizeFilename ": a" ≠ sanitizeSpecOrder ": a" := by
  refine ⟨by decide, by decide, by decide⟩

/-- In the unit loop, if every previously attempted sink invocation
succeeded and some attempted invocation failed, the loop's result is that
sink failure and the failing invocation was the last one attempted. -/
theorem genLoop_sink_all (files : EntryMap) (baseProj : Json) (opts : GenOptions)
    (rnd : Nat → RandPick) (sink : Event → Bool) :
    ∀ (left i : Nat) (used : List String) (out : OutMap)
      (evts evts' : List Event) (r : Except GenError OutMap),
      genLoop files baseProj opts rnd sink left i used out evts = (evts', r) →
      (∀ e ∈ evts, sink e = true) →
      ∀ e ∈ evts', sink e = false →
        r = .error (.sinkFail e) ∧ evts'.getLast? = some e := by
  intro left
  induction left with
  | zero =>
    intro i used out evts evts' r h hall e he hse
    simp only [genLoop, Prod.mk.injEq] at h
    obtain ⟨h1, h2⟩ := h
    subst h1
    rw [hall e he] at hse
    cases hse
  | succ n ih =>
    intro i used out evts evts' r h hall e he hse
    simp only [genLoop] at h
    split at h
    · simp only [Prod.mk.injEq] at h
      obtain ⟨h1, h2⟩ := h
      subst h1
      rw [hall e he] at hse
      cases hse
    · split at h
      · split at h
        · next hs =>
          refine ih (i + 1) _ _ _ _ _ h ?_ e he hse
          intro e' he'
          rcases List.mem_append.mp he' with h' | h'
          · exact hall e' h'
          · have : e' = Event.generating i opts.count := by simpa using h'
            subst this
            exact hs
        · next hs =>
          simp only [Prod.mk.injEq] at h
          obtain ⟨h1, h2⟩ := h
          subst h1
          rcases List.mem_append.mp he with h' | h'
          · rw [hall e h'] at hse
            cases hse
          · have : e = Event.generating i opts.count := by simpa using h'
            subst this
            exact ⟨h2.symm, List.getLast?_concat _⟩
      · exact ih (i + 1) _ _ _ _ _ h hall e he hse

/-- C3 (corrected): no progress-sink failure is caught by the
orchestrator — whichever attempted sink invocation rejects (the download
notification, a per-unit generating notification, or the packing
notification), its failure propagates out of `generateOutputsZip`: the
failing invocation is the last one attempted, the run's result is exactly
that sink failure, and no archive is returned. -/
theorem c3_sink_failure_amended (w : World) (env : Env) (opts : GenOptions)
    (rnd : Nat → RandPick) (sink : Event → Bool) (evts : List Event)
    (r : Except GenError OutMap)
    (hrun : generateOutputsZip w env opts rnd sink = (evts, r)) :
    ∀ e ∈ evts, sink e = false →
      r = .error (.sinkFail e) ∧ evts.getLast? = some e ∧
        ∀ out : OutMap, r ≠ .ok out := by
  have main : ∀ e ∈ evts, sink e = false →
      r = .error (.sinkFail e) ∧ evts.getLast? = some e := by
    intro e he hse
    simp only [generateOutputsZip] at hrun
    split at hrun
    · next hdl =>
      split at hrun
      · simp only [Prod.mk.injEq] at hrun
        obtain ⟨h1, h2⟩ := hrun
        subst h1
        have : e = Event.download := by simpa using he
        subst this
        rw [hdl] at hse
        cases hse
      · split at hrun
        · simp only [Prod.mk.injEq] at hrun
          obtain ⟨h1, h2⟩ := hrun
          subst h1
          have : e = Event.download := by simpa using he
          subst this
          rw [hdl] at hse
          cases hse
        · next files baseProj hval =>
          split at hrun
          · next evts₁ e₁ hloop =>
            simp only [Prod.mk.injEq] at hrun
            obtain ⟨h1, h2⟩ := hrun
            subst h1
            obtain ⟨hres, hlast⟩ := genLoop_sink_all files baseProj opts rnd sink
              opts.count 1 [] [] [Event.download] evts₁ (.error e₁) hloop
              (by intro e' he'; have : e' = Event.download := by simpa using he'
                  subst this; exact hdl) e he hse
            refine ⟨?_, hlast⟩
            rw [← h2]
            exact hres
          · next evts₁ out₁ hloop =>
            have hall₁ : ∀ e' ∈ evts₁, sink e' = true := by
              intro e' he'
              by_contra hfe
              obtain ⟨hres, -⟩ := genLoop_sink_all files baseProj opts rnd sink
                opts.count 1 [] [] [Event.download] evts₁ (.ok out₁) hloop
                (by intro e'' he''; have : e'' = Event.download := by simpa using he''
                    subst this; exact hdl) e' he' (by simpa using hfe)
              cases hres
            split at hrun
            · next hp =>
              simp only [Prod.mk.injEq] at hrun
              obtain ⟨h1, h2⟩ := hrun
              subst h1
              rcases List.mem_append.mp he with h' | h'
              · rw [hall₁ e h'] at hse
                cases hse
              · have : e = Event.packing := by simpa using h'
                subst this
                rw [hp] at hse
                cases hse
            · next hp =>
              simp only [Prod.mk.injEq] at hrun
              obtain ⟨h1, h2⟩ := hrun
              subst h1
              rcases List.mem_append.mp he with h' | h'
              · rw [hall₁ e h'] at hse
                cases hse
              · have : e = Event.packing := by simpa using h'
                subst this
                exact ⟨h2.symm, List.getLast?_concat _⟩
    · next hdl =>
      simp only [Prod.mk.injEq] at hrun
      obtain ⟨h1, h2⟩ := hrun
      subst h1
      have : e = Event.download := by simpa using he
      subst this
      exact ⟨h2.symm, rfl⟩
  intro e he hse
  obtain ⟨hres, hlast⟩ := main e he hse
  exact ⟨hres, hlast, fun out hok => by rw [hok] at hres; cases hres⟩

/-- C3 witness: the concrete run with an always-failing sink ends with
the download notification's failure as its result, that notification
being the last (and only) attempted sink invocation. -/
theorem c3_sink_failure_amended_witness :
    (generateOutputsZip goodWorld envOk optsFixed1 rnd0 sinkBad).2 =
      .error (.sinkFail Event.download) ∧
    (generateOutputsZip goodWorld envOk optsFixed1 rnd0 sinkBad).1.getLast? =
      some Event.download := by
  have h := c3_sink_failure_amended goodWorld envOk optsFixed1 rnd0 sinkBad
    [Event.download] (.error (.sinkFail Event.download)) rfl
    Event.download (by simp) rfl
  exact ⟨h.1, h.2.1⟩

/-- C3 counterexample: on a template that generates fine under a working
sink, replacing the sink by a failing one makes the pipeline return an
error instead of the outer archive — the sink failure is not caught and
ignored. -/
theorem c3_sink_failure_counterexample :
    exceptIsOk (generateOutputsZip goodWorld envOk optsFixed1 rnd0 sinkOk).2 = true ∧
    (generateOutputsZip goodWorld envOk optsFixed1 rnd0 sinkBad).2 =
      .error (.sinkFail Event.download) := ⟨rfl, rfl⟩

/-- C4 (corrected): when the fetched template's descriptor lacks one of
the four required layers, `generateOutputsZip` fails with the
`FormatError` naming the first missing layer, before any unit is
generated and before any per-unit progress event — but the progress sink
has already received the initial template-download notification, so the
attempted-event list is exactly `[download]` rather than empty. -/
theorem c4_missing_layer_amended (w : World) (env : Env) (opts : GenOptions)
    (rnd : Nat → RandPick) (sink : Event → Bool)
    (bytes : String) (files : EntryMap) (entry : String) (proj : Json) (k : String)
    (hsink : sink Event.download = true)
    (hfetch : fetchTemplateBytes w env = .ok bytes)
    (hunzip : w.unzip bytes = some files)
    (hdata : objGet files "data.plab" = some entry)
    (hparse : w.parse entry = some proj)
    (hmiss : firstMissingLayer proj = some k) :
    generateOutputsZip w env opts rnd sink =
      ([Event.download], .error (.format ("Template missing layer " ++ k))) := by
  simp [generateOutputsZip, hsink, hfetch, validateTemplate, hunzip, hdata, hparse, hmiss]

/-- C4 witness: the concrete world whose descriptor lacks `text0` fails
naming `text0`, with the download notification already attempted. -/
theorem c4_missing_layer_amended_witness :
    generateOutputsZip badLayerWorld envOk optsFixed1 rnd0 sinkOk =
      ([Event.download], .error (.format ("Template missing layer " ++ "text0"))) :=
  c4_missing_layer_amended badLayerWorld envOk optsFixed1 rnd0 sinkOk
    "TPLBYTES" templateFiles "DESC" badDescriptor "text0"
    rfl rfl rfl rfl rfl rfl

/-- C4 counterexample: on a concrete template lacking `text0`, the run
does fail with the error naming the first missing layer and generates no
unit, but the emitted sink-invocation list is `[download]`, not empty —
refuting "with no progress events having been emitted". -/
theorem c4_missing_layer_counterexample :
    generateOutputsZip badLayerWorld envOk optsFixed1 rnd0 sinkOk =
      ([Event.download], .error (.format "Template missing layer text0")) ∧
    (generateOutputsZip badLayerWorld envOk optsFixed1 rnd0 sinkOk).1 ≠ [] :=
  ⟨rfl, by decide⟩

/-- Errors thrown inside the substitution chain are `TypeError`s. -/
theorem substAll_err_kind :
    ∀ (l : List (String × String)) (b : Json) (e : GenError),
      substAll b l = .error e → ∃ m, e = .typeError m := by
  intro l
  induction l with
  | nil => intro b e h; simp [substAll] at h
  | cons p rest ih =>
    intro b e h
    simp only [substAll] at h
    split at h
    · split at h
      · split at h
        · exact ih _ _ h
        · next e' hsub =>
          simp only [Except.error.injEq] at h
          subst h
          revert hsub
          simp only [substituteLayer]
          split
          · intro hsub; simp at hsub
          · intro hsub
            simp only [Except.error.injEq] at hsub
            exact ⟨_, hsub.symm⟩
      · simp only [Except.error.injEq] at h
        exact ⟨_, h.symm⟩
    · simp only [Except.error.injEq] at h
      exact ⟨_, h.symm⟩

/-- Errors thrown while building one unit are `TypeError`s. -/
theorem genUnit_err_kind (files : EntryMap) (baseProj : Json) (opts : GenOptions)
    (r : RandPick) (e : GenError) (h : genUnit files baseProj opts r = .error e) :
    ∃ m, e = .typeError m := by
  simp only [genUnit] at h
  split at h
  · simp only [Except.error.injEq] at h
    exact ⟨_, h.symm⟩
  · split at h
    · next e' hsub =>
      simp only [Except.error.injEq] at h
      subst h
      exact substAll_err_kind _ _ _ hsub
    · split at h
      · simp at h
      · simp only [Except.error.injEq] at h
        exact ⟨_, h.symm⟩

/-- Errors escaping the unit loop are `TypeError`s or sink rejections. -/
theorem genLoop_err_kind (files : EntryMap) (baseProj : Json) (opts : GenOptions)
    (rnd : Nat → RandPick) (sink : Event → Bool) :
    ∀ (left i : Nat) (used : List String) (out : OutMap) (evts evts' : List Event)
      (e : GenError),
      genLoop files baseProj opts rnd sink left i used out evts = (evts', .error e) →
      (∃ m, e = .typeError m) ∨ (∃ ev, e = .sinkFail ev) := by
  intro left
  induction left with
  | zero => intro i used out evts evts' e h; simp [genLoop] at h
  | succ n ih =>
    intro i used out evts evts' e h
    simp only [genLoop] at h
    revert h
    match hu : genUnit files baseProj opts (rnd i) with
    | .error e' =>
      intro h
      simp only [Prod.mk.injEq, Except.error.injEq] at h
      exact Or.inl (h.2 ▸ genUnit_err_kind _ _ _ _ _ hu)
    | .ok (fullName, inner) =>
      simp only
      split
      · split
        · intro h; exact ih _ _ _ _ _ _ h
        · intro h
          simp only [Prod.mk.injEq, Except.error.injEq] at h
          exact Or.inr ⟨_, h.2.symm⟩
      · intro h; exact ih _ _ _ _ _ _ h

/-- Errors thrown by template validation are `FormatError`s. -/
theorem validateTemplate_err_kind (w : World) (bytes : String) (e : GenError)
    (h : validateTemplate w bytes = .error e) : ∃ m, e = .format m := by
  simp only [validateTemplate] at h
  split at h
  · simp only [Except.error.injEq] at h
    exact ⟨_, h.symm⟩
  · split at h
    · simp only [Except.error.injEq] at h
      exact ⟨_, h.symm⟩
    · split at h
      · simp only [Except.error.injEq] at h
        exact ⟨_, h.symm⟩
      · split at h
        · simp only [Except.error.injEq] at h
          exact ⟨_, h.symm⟩
        · simp at h

/-- The three fetch-failure conditions of the spec. -/
def fetchFails (w : World) (env : Env) : Prop :=
  jsTrim env.templateUrl = "" ∨ w.fetch = none ∨
    ∃ s b, w.fetch = some (s, b) ∧ statusOk s = false

/-- The fetch stage throws (always a template-fetch error) exactly under
the three conditions. -/
theorem fetchTemplateBytes_err_iff (w : World) (env : Env) :
    (∃ msg, fetchTemplateBytes w env = .error (.templateFetch msg)) ↔ fetchFails w env := by
  constructor
  · rintro ⟨msg, h⟩
    simp only [fetchTemplateBytes] at h
    split at h
    · next hurl => exact Or.inl hurl
    · split at h
      · next hf => exact Or.inr (Or.inl hf)
      · next status body hf =>
        split at h
        · simp at h
        · next hok =>
          exact Or.inr (Or.inr ⟨status, body, hf, by simpa using hok⟩)
  · intro hcond
    by_cases hurl : jsTrim env.templateUrl = ""
    · exact ⟨"TEMPLATE_URL not set", by simp [fetchTemplateBytes, hurl]⟩
    · rcases hcond with h | h | ⟨s, b, hf, hs⟩
      · exact absurd h hurl
      · exact ⟨"template source unreachable", by simp [fetchTemplateBytes, hurl, h]⟩
      · refine ⟨"Failed to fetch template: " ++ natToDec s, ?_⟩
        simp [fetchTemplateBytes, hurl, hf, hs]

/-- When the fetch succeeds, no later stage can throw a template-fetch
error. -/
theorem no_tf_after_fetch_ok (w : World) (env : Env) (opts : GenOptions)
    (rnd : Nat → RandPick) (sink : Event → Bool) (bytes : String)
    (hfetch : fetchTemplateBytes w env = .ok bytes) :
    ∀ evts msg, generateOutputsZip w env opts rnd sink ≠ (evts, .error (.templateFetch msg)) := by
  intro evts msg h
  simp only [generateOutputsZip] at h
  split at h
  · rw [hfetch] at h
    split at h
    · next e heq => simp at heq
    · next bytes' heq =>
      have hb : bytes' = bytes := by
        injection heq with h'
        exact h'.symm
      subst hb
      split at h
      · next e hval =>
        simp only [Prod.mk.injEq, Except.error.injEq] at h
        obtain ⟨m, hm⟩ := validateTemplate_err_kind _ _ _ hval
        rw [hm] at h
        exact GenError.noConfusion h.2
      · next files baseProj hval =>
        split at h
        · next evts' e hloop =>
          simp only [Prod.mk.injEq, Except.error.injEq] at h
          rcases genLoop_err_kind _ _ _ _ _ _ _ _ _ _ _ _ hloop with ⟨m, hm⟩ | ⟨ev, hm⟩ <;>
            rw [hm] at h <;> exact GenError.noConfusion h.2
        · split at h
          · simp at h
          · simp only [Prod.mk.injEq, Except.error.injEq] at h
            exact GenError.noConfusion h.2
  · simp only [Prod.mk.injEq, Except.error.injEq] at h
    exact GenError.noConfusion h.2

/-- C9: the batch fails with a template-fetch error exactly when the
source location is blank after trimming, the fetch rejects (unreachable
source), or the response status is not a success; and under any of these
conditions no output archive is produced.  (The initial sink notification
precedes the fetch, so the sink is assumed not to reject it.) -/
theorem c9_template_fetch_error (w : World) (env : Env) (opts : GenOptions)
    (rnd : Nat → RandPick) (sink : Event → Bool)
    (hsink : sink Event.download = true) :
    ((∃ evts msg, generateOutputsZip w env opts rnd sink =
        (evts, .error (.templateFetch msg))) ↔ fetchFails w env) ∧
    (fetchFails w env →
      ∀ evts out, generateOutputsZip w env opts rnd sink ≠ (evts, .ok out)) := by
  have hbuild : fetchFails w env →
      ∃ msg, generateOutputsZip w env opts rnd sink =
        ([Event.download], .error (.templateFetch msg)) := by
    intro hcond
    obtain ⟨msg, hmsg⟩ := (fetchTemplateBytes_err_iff w env).mpr hcond
    exact ⟨msg, by simp [generateOutputsZip, hsink, hmsg]⟩
  constructor
  · constructor
    · rintro ⟨evts, msg, h⟩
      by_contra hcond
      have hok : ∃ bytes, fetchTemplateBytes w env = .ok bytes := by
        simp only [fetchFails, not_or] at hcond
        obtain ⟨h1, h2, h3⟩ := hcond
        revert h2 h3
        match hf : w.fetch with
        | none => intro h2 _; exact absurd rfl h2
        | some (status, body) =>
          intro _ h3
          push_neg at h3
          have hs := h3 status body rfl
          simp only [Bool.not_eq_false] at hs
          exact ⟨body, by simp [fetchTemplateBytes, h1, hf, hs]⟩
      obtain ⟨bytes, hbytes⟩ := hok
      exact no_tf_after_fetch_ok w env opts rnd sink bytes hbytes evts msg h
    · intro hcond
      obtain ⟨msg, h⟩ := hbuild hcond
      exact ⟨[Event.download], msg, h⟩
  · intro hcond evts out h
    obtain ⟨msg, h'⟩ := hbuild hcond
    rw [h] at h'
    simp at h'

/-- C9 witness: a concrete unreachable source makes the concrete run fail
with a template-fetch error and produce no archive. -/
theorem c9_template_fetch_error_witness :
    (∃ evts msg, generateOutputsZip noFetchWorld envOk optsFixed1 rnd0 sinkOk =
      (evts, .error (.templateFetch msg))) ∧
    (∀ evts out, generateOutputsZip noFetchWorld envOk optsFixed1 rnd0 sinkOk ≠
      (evts, .ok out)) := by
  have h := c9_template_fetch_error noFetchWorld envOk optsFixed1 rnd0 sinkOk rfl
  have hcond : fetchFails noFetchWorld envOk := Or.inr (Or.inl rfl)
  exact ⟨h.1.mpr hcond, h.2 hcond⟩

theorem char_toNat_ofNat_lt {n : Nat} (h : n < 55296) : (Char.ofNat n).toNat = n := by
  unfold Char.ofNat
  rw [dif_pos (Or.inl h)]
  rfl

theorem decValL_append_digit (xs : List Char) (c : Char) :
    decValL (xs ++ [c]) = 10 * decValL xs + (c.toNat - 48) := by
  simp [decValL, List.foldl_append]

theorem decValL_natToDecCore :
    ∀ fuel n, n ≤ fuel → decValL (natToDecCore fuel n) = n := by
  intro fuel
  induction fuel with
  | zero =>
    intro n hn
    have : n = 0 := by omega
    subst this
    rfl
  | succ f ih =>
    intro n hn
    match n with
    | 0 => rfl
    | m + 1 =>
      show decValL (natToDecCore f ((m + 1) / 10) ++ [Char.ofNat (48 + (m + 1) % 10)]) = m + 1
      have hdiv : (m + 1) / 10 ≤ f := by
        have := Nat.div_lt_self (show 0 < m + 1 by omega) (show 1 < 10 by omega)
        omega
      rw [decValL_append_digit, ih ((m + 1) / 10) hdiv,
        char_toNat_ofNat_lt (show 48 + (m + 1) % 10 < 55296 by omega)]
      omega

theorem decValL_natToDecL (n : Nat) : decValL (natToDecL n) = n := by
  unfold natToDecL
  split
  · next h => subst h; decide
  · exact decValL_natToDecCore n n le_rfl

theorem natToDec_inj {a b : Nat} (h : natToDec a = natToDec b) : a = b := by
  have h' := congrArg (fun s => decValL s.data) h
  simpa [natToDec, data_mk, decValL_natToDecL] using h'

theorem mkSuffixed_inj (base : String) : Function.Injective (mkSuffixed base) := by
  intro a b h
  unfold mkSuffixed at h
  have hd := congrArg String.data h
  simp only [String.data_append] at hd
  have h1 := List.append_cancel_right hd
  have h2 := List.append_cancel_left h1
  exact natToDec_inj (congrArg String.mk h2)

/-- Among `used.length + 1` consecutive suffix candidates there is always
one that is unused (the suffixed names are pairwise distinct). -/
theorem exists_free_suffix (used : List String) (base : String) :
    ∃ m, 2 ≤ m ∧ m < used.length + 3 ∧ mkSuffixed base m ∉ used := by
  by_contra hcon
  push_neg at hcon
  have hsub : ((List.range' 2 (used.length + 1)).map (mkSuffixed base)) ⊆ used := by
    intro x hx
    simp only [List.mem_map, List.mem_range'] at hx
    obtain ⟨m, ⟨i, hi, hm⟩, rfl⟩ := hx
    exact hcon m (by omega) (by omega)
  have hnd : ((List.range' 2 (used.length + 1)).map (mkSuffixed base)).Nodup :=
    (List.nodup_range' 2 (used.length + 1)).map (mkSuffixed_inj base)
  have hlen := (hnd.subperm hsub).length_le
  simp only [List.length_map, List.length_range'] at hlen
  omega

/-- The fuel-driven search returns the least free suffix at or above its
start whenever a free one exists within its window. -/
theorem findSuffix_spec (used : List String) (base : String) :
    ∀ fuel n, (∃ m, n ≤ m ∧ m < n + fuel ∧ mkSuffixed base m ∉ used) →
      mkSuffixed base (findSuffix used base fuel n) ∉ used ∧
      n ≤ findSuffix used base fuel n ∧
      ∀ m, n ≤ m → m < findSuffix used base fuel n → mkSuffixed base m ∈ used := by
  intro fuel
  induction fuel with
  | zero =>
    rintro n ⟨m, h1, h2, _⟩
    omega
  | succ f ih =>
    rintro n hex
    have hstep : findSuffix used base (f + 1) n =
        if mkSuffixed base n ∈ used then findSuffix used base f (n + 1) else n := rfl
    rw [hstep]
    by_cases hn : mkSuffixed base n ∈ used
    · rw [if_pos hn]
      have hex' : ∃ m, n + 1 ≤ m ∧ m < (n + 1) + f ∧ mkSuffixed base m ∉ used := by
        obtain ⟨m, h1, h2, h3⟩ := hex
        have : m ≠ n := fun hmn => h3 (hmn ▸ hn)
        exact ⟨m, by omega, by omega, h3⟩
      obtain ⟨g1, g2, g3⟩ := ih (n + 1) hex'
      refine ⟨g1, by omega, ?_⟩
      intro m hm1 hm2
      by_cases hmn : m = n
      · exact hmn ▸ hn
      · exact g3 m (by omega) hm2
    · rw [if_neg hn]
      exact ⟨hn, le_rfl, fun m hm1 hm2 => absurd hm2 (by omega)⟩

/-- The allocator's step contract: the allocated name is fresh, and on a
collision it is the base suffixed with the least unused `n ≥ 2`. -/
theorem allocate_spec (used : List String) (fullName : String) :
    allocate used fullName ∉ used ∧
    ((sanitizeFilename fullName ++ ".plp") ∈ used →
      ∃ n, 2 ≤ n ∧ allocate used fullName = mkSuffixed (sanitizeFilename fullName) n ∧
        mkSuffixed (sanitizeFilename fullName) n ∉ used ∧
        ∀ m, 2 ≤ m → m < n → mkSuffixed (sanitizeFilename fullName) m ∈ used) := by
  have halloc : allocate used fullName =
      if (sanitizeFilename fullName ++ ".plp") ∈ used
      then mkSuffixed (sanitizeFilename fullName)
        (findSuffix used (sanitizeFilename fullName) (used.length + 1) 2)
      else (sanitizeFilename fullName ++ ".plp") := rfl
  rw [halloc]
  by_cases hc : (sanitizeFilename fullName ++ ".plp") ∈ used
  · rw [if_pos hc]
    obtain ⟨m, hm1, hm2, hm3⟩ := exists_free_suffix used (sanitizeFilename fullName)
    obtain ⟨g1, g2, g3⟩ := findSuffix_spec used (sanitizeFilename fullName)
      (used.length + 1) 2 ⟨m, hm1, by omega, hm3⟩
    exact ⟨g1, fun _ => ⟨_, g2, rfl, g1, g3⟩⟩
  · rw [if_neg hc]
    exact ⟨hc, fun h => absurd h hc⟩

theorem objSetIn_keys {β : Type} (fs : List (String × β)) (k : String) (v : β) :
    (objSetIn fs k v).map Prod.fst = fs.map Prod.fst := by
  induction fs with
  | nil => rfl
  | cons p rest ih =>
    obtain ⟨k', v'⟩ := p
    simp only [objSetIn]
    split <;> simp_all

theorem objSet_keys {β : Type} (fs : List (String × β)) (k : String) (v : β)
    (h : objHasKey fs k = true) : (objSet fs k v).map Prod.fst = fs.map Prod.fst := by
  unfold objSet
  rw [if_pos h]
  exact objSetIn_keys fs k v

theorem objSetIn_get_ne {β : Type} (fs : List (String × β)) (k : String) (v : β)
    (k' : String) (h : k' ≠ k) : objGet (objSetIn fs k v) k' = objGet fs k' := by
  induction fs with
  | nil => rfl
  | cons p rest ih =>
    obtain ⟨k0, v0⟩ := p
    simp only [objSetIn]
    by_cases hk : k0 = k
    · subst hk
      rw [if_pos rfl]
      simp only [objGet]
      rw [if_neg (fun hh => h hh.symm), if_neg (fun hh => h hh.symm)]
      exact ih
    · rw [if_neg hk]
      simp only [objGet]
      split
      · rfl
      · exact ih

theorem objSetIn_get_eq {β : Type} (fs : List (String × β)) (k : String) (v : β)
    (h : objHasKey fs k = true) : objGet (objSetIn fs k v) k = some v := by
  induction fs with
  | nil => simp [objHasKey] at h
  | cons p rest ih =>
    obtain ⟨k0, v0⟩ := p
    simp only [objSetIn]
    by_cases hk : k0 = k
    · subst hk
      rw [if_pos rfl]
      simp [objGet]
    · rw [if_neg hk]
      simp only [objGet]
      rw [if_neg hk]
      simp only [objHasKey] at h
      rw [if_neg hk] at h
      exact ih h

theorem objGet_some_hasKey {β : Type} (fs : List (String × β)) (k : String) (v : β)
    (h : objGet fs k = some v) : objHasKey fs k = true := by
  induction fs with
  | nil => simp [objGet] at h
  | cons p rest ih =>
    obtain ⟨k0, v0⟩ := p
    simp only [objGet] at h
    simp only [objHasKey]
    split
    · rfl
    · next hk =>
      rw [if_neg hk] at h
      exact ih h

theorem objGet_append_left {β : Type} (fs gs : List (String × β)) (k : String)
    (h : objHasKey fs k = false) : objGet (fs ++ gs) k = objGet gs k := by
  induction fs with
  | nil => rfl
  | cons p rest ih =>
    obtain ⟨k0, v0⟩ := p
    simp only [objHasKey] at h
    simp only [List.cons_append, objGet]
    split at h
    · exact absurd h (by simp)
    · next hk =>
      rw [if_neg hk]
      exact ih h

theorem objSet_get_eq {β : Type} (fs : List (String × β)) (k : String) (v : β) :
    objGet (objSet fs k v) k = some v := by
  unfold objSet
  by_cases h : objHasKey fs k = true
  · rw [if_pos h]
    exact objSetIn_get_eq fs k v h
  · rw [if_neg h]
    rw [objGet_append_left fs _ k (by simpa using h)]
    simp [objGet]

theorem objGet_append_single_ne {β : Type} (fs : List (String × β)) (k : String)
    (v : β) (k' : String) (h : k' ≠ k) : objGet (fs ++ [(k, v)]) k' = objGet fs k' := by
  induction fs with
  | nil =>
    simp only [List.nil_append, objGet]
    rw [if_neg (fun hh => h hh.symm)]
  | cons p rest ih =>
    obtain ⟨k0, v0⟩ := p
    simp only [List.cons_append, objGet]
    split
    · rfl
    · exact ih

theorem objSet_get_ne {β : Type} (fs : List (String × β)) (k : String) (v : β)
    (k' : String) (h : k' ≠ k) : objGet (objSet fs k v) k' = objGet fs k' := by
  unfold objSet
  split
  · exact objSetIn_get_ne fs k v k' h
  · exact objGet_append_single_ne fs k v k' h

/-- A successful unit build returns the template entries with only the
descriptor entry replaced by a re-serialized descriptor. -/
theorem genUnit_ok_shape (files : EntryMap) (baseProj : Json) (opts : GenOptions)
    (r : RandPick) (fullName : String) (inner : EntryMap)
    (h : genUnit files baseProj opts r = .ok (fullName, inner)) :
    ∃ j, inner = objSet files "data.plab" (serializeJson j) := by
  simp only [genUnit] at h
  split at h
  · simp at h
  · split at h
    · simp at h
    · split at h
      · next projFields =>
        simp only [Except.ok.injEq, Prod.mk.injEq] at h
        exact ⟨_, h.2.symm⟩
      · simp at h

theorem genEvents_zero (total i : Nat) : genEvents total i 0 = [] := rfl

theorem genEvents_succ_pos (total i left : Nat) (h : progressCond total i = true) :
    genEvents total i (left + 1) =
      Event.generating i total :: genEvents total (i + 1) left := by
  simp [genEvents, List.range'_succ, List.filter_cons, h]

theorem genEvents_succ_neg (total i left : Nat) (h : progressCond total i = false) :
    genEvents total i (left + 1) = genEvents total (i + 1) left := by
  simp [genEvents, List.range'_succ, List.filter_cons, h]

/-- Loop invariant of the unit loop on success: the output grows by one
entry per remaining unit, keys stay pairwise distinct, every new entry's
inner archive is the template entries with the descriptor replaced, and
the attempted events are exactly the progress cadence. -/
theorem genLoop_ok_inv (files : EntryMap) (baseProj : Json) (opts : GenOptions)
    (rnd : Nat → RandPick) (sink : Event → Bool) :
    ∀ (left i : Nat) (used : List String) (out : OutMap)
      (evts evts' : List Event) (res : OutMap),
      used = out.map Prod.fst →
      genLoop files baseProj opts rnd sink left i used out evts = (evts', .ok res) →
      res.length = out.length + left ∧
      ((out.map Prod.fst).Nodup → (res.map Prod.fst).Nodup) ∧
      (∀ p ∈ res, p ∈ out ∨ ∃ j, p.2 = objSet files "data.plab" (serializeJson j)) ∧
      evts' = evts ++ genEvents opts.count i left := by
  intro left
  induction left with
  | zero =>
    intro i used out evts evts' res hused h
    simp only [genLoop, Prod.mk.injEq, Except.ok.injEq] at h
    obtain ⟨he, hr⟩ := h
    subst he
    subst hr
    exact ⟨rfl, fun h => h, fun p hp => Or.inl hp, by simp [genEvents_zero]⟩
  | succ n ih =>
    intro i used out evts evts' res hused h
    simp only [genLoop] at h
    split at h
    · simp at h
    · next fullName inner hgen =>
      have hfresh : allocate used fullName ∉ out.map Prod.fst :=
        hused ▸ (allocate_spec used fullName).1
      have hused' : used ++ [allocate used fullName] =
          (out ++ [(allocate used fullName, inner)]).map Prod.fst := by
        simp [hused]
      split at h
      · next hcond =>
        split at h
        · next hsink =>
          obtain ⟨hlen, hnd, helem, hevts⟩ := ih (i + 1) _ _ _ _ _ hused' h
          refine ⟨by simp only [List.length_append, List.length_cons, List.length_nil] at hlen; omega, ?_, ?_, ?_⟩
          · intro hnodup
            apply hnd
            simp only [List.map_append, List.map_cons, List.map_nil]
            simp [List.nodup_append, hnodup, hfresh]
          · intro p hp
            rcases helem p hp with hin | hsh
            · rcases List.mem_append.mp hin with hin' | hin'
              · exact Or.inl hin'
              · have : p = (allocate used fullName, inner) := by simpa using hin'
                subst this
                exact Or.inr (genUnit_ok_shape _ _ _ _ _ _ hgen)
            · exact Or.inr hsh
          · rw [hevts, genEvents_succ_pos opts.count i n hcond]
            simp
        · next hsink =>
          simp at h
      · next hcond =>
        obtain ⟨hlen, hnd, helem, hevts⟩ := ih (i + 1) _ _ _ _ _ hused' h
        refine ⟨by simp only [List.length_append, List.length_cons, List.length_nil] at hlen; omega, ?_, ?_, ?_⟩
        · intro hnodup
          apply hnd
          simp only [List.map_append, List.map_cons, List.map_nil]
          simp [List.nodup_append, hnodup, hfresh]
        · intro p hp
          rcases helem p hp with hin | hsh
          · rcases List.mem_append.mp hin with hin' | hin'
            · exact Or.inl hin'
            · have : p = (allocate used fullName, inner) := by simpa using hin'
              subst this
              exact Or.inr (genUnit_ok_shape _ _ _ _ _ _ hgen)
          · exact Or.inr hsh
        · rw [hevts, genEvents_succ_neg opts.count i n (by simpa using hcond)]

/-- Inversion of a successful run: each pipeline stage succeeded and the
final event list is the loop's events followed by the packing event. -/
theorem run_ok_inv (w : World) (env : Env) (opts : GenOptions)
    (rnd : Nat → RandPick) (sink : Event → Bool) (evts : List Event) (out : OutMap)
    (h : generateOutputsZip w env opts rnd sink = (evts, .ok out)) :
    sink Event.download = true ∧
    ∃ bytes files baseProj evts₁,
      fetchTemplateBytes w env = .ok bytes ∧
      validateTemplate w bytes = .ok (files, baseProj) ∧
      genLoop files baseProj opts rnd sink opts.count 1 [] [] [Event.download] =
        (evts₁, .ok out) ∧
      evts = evts₁ ++ [Event.packing] ∧ sink Event.packing = true := by
  simp only [generateOutputsZip] at h
  split at h
  · next hsink =>
    refine ⟨hsink, ?_⟩
    split at h
    · simp at h
    · next bytes hfetch =>
      split at h
      · simp at h
      · next files baseProj hval =>
        split at h
        · simp at h
        · next evts₁ out₁ hloop =>
          split at h
          · next hpack =>
            simp only [Prod.mk.injEq, Except.ok.injEq] at h
            obtain ⟨he, ho⟩ := h
            subst ho
            exact ⟨bytes, files, baseProj, evts₁, hfetch, hval, hloop, he.symm, hpack⟩
          · simp at h
  · simp at h

/-- Inversion of successful validation. -/
theorem validate_ok_inv (w : World) (bytes : String) (files : EntryMap)
    (baseProj : Json) (h : validateTemplate w bytes = .ok (files, baseProj)) :
    w.unzip bytes = some files ∧ objHasKey files "data.plab" = true ∧
    firstMissingLayer baseProj = none := by
  simp only [validateTemplate] at h
  split at h
  · simp at h
  · next files' hunzip =>
    split at h
    · simp at h
    · next entry hentry =>
      split at h
      · simp at h
      · next proj hparse =>
        split at h
        · simp at h
        · next hmiss =>
          simp only [Except.ok.injEq, Prod.mk.injEq] at h
          obtain ⟨h1, h2⟩ := h
          subst h1
          subst h2
          exact ⟨hunzip, objGet_some_hasKey _ _ _ hentry, hmiss⟩

/-- C2: in every batch of N units (1 ≤ N ≤ 200) the allocated output
filenames are pairwise distinct — so the outer archive holds exactly N
entries — and the allocator's collision handling gives a colliding unit
the base name suffixed with the first unused integer `n ≥ 2`, in
allocation order along the sequential loop. -/
theorem c2_filename_uniqueness (w : World) (env : Env) (opts : GenOptions)
    (rnd : Nat → RandPick) (sink : Event → Bool) (evts : List Event) (out : OutMap)
    (_hlo : 1 ≤ opts.count) (_hhi : opts.count ≤ 200)
    (hrun : generateOutputsZip w env opts rnd sink = (evts, .ok out)) :
    out.length = opts.count ∧ (out.map Prod.fst).Nodup ∧
    (∀ (used : List String) (fullName : String),
      allocate used fullName ∉ used ∧
      ((sanitizeFilename fullName ++ ".plp") ∈ used →
        ∃ n, 2 ≤ n ∧
          allocate used fullName = mkSuffixed (sanitizeFilename fullName) n ∧
          mkSuffixed (sanitizeFilename fullName) n ∉ used ∧
          ∀ m, 2 ≤ m → m < n → mkSuffixed (sanitizeFilename fullName) m ∈ used)) := by
  obtain ⟨-, bytes, files, baseProj, evts₁, -, -, hloop, -, -⟩ :=
    run_ok_inv w env opts rnd sink evts out hrun
  obtain ⟨hlen, hnd, -, -⟩ :=
    genLoop_ok_inv files baseProj opts rnd sink opts.count 1 [] [] [Event.download]
      evts₁ out rfl hloop
  exact ⟨by simpa using hlen, hnd (by simp), fun used fullName => allocate_spec used fullName⟩

/-- C2 witness: a concrete two-unit batch with identical fixed names gets
two distinct filenames. -/
theorem c2_filename_uniqueness_witness :
    ∃ evts out, generateOutputsZip goodWorld envOk optsFixed2 rnd0 sinkOk =
      (evts, Except.ok out) ∧ out.length = 2 ∧ (out.map Prod.fst).Nodup := by
  obtain ⟨evts, out, hrun⟩ :
      ∃ evts out, generateOutputsZip goodWorld envOk optsFixed2 rnd0 sinkOk =
        (evts, Except.ok out) := ⟨_, _, rfl⟩
  obtain ⟨h1, h2, -⟩ :=
    c2_filename_uniqueness goodWorld envOk optsFixed2 rnd0 sinkOk evts out
      (by decide) (by decide) hrun
  exact ⟨evts, out, hrun, h1, h2⟩

/-- C7: on every completed batch of N units (1 ≤ N ≤ 200) the attempted
per-unit progress events are exactly those at indices i with i = 1, i = N,
or i a multiple of `max 1 (N / 10)`; for N = 23 that index set is exactly
{1, 2, 4, 6, 8, 10, 12, 14, 16, 18, 20, 22, 23}. -/
theorem c7_progress_cadence (w : World) (env : Env) (opts : GenOptions)
    (rnd : Nat → RandPick) (sink : Event → Bool) (evts : List Event) (out : OutMap)
    (_hlo : 1 ≤ opts.count) (_hhi : opts.count ≤ 200)
    (hrun : generateOutputsZip w env opts rnd sink = (evts, .ok out)) :
    (∀ i, 1 ≤ i → i ≤ opts.count →
      (Event.generating i opts.count ∈ evts ↔
        (i = 1 ∨ i = opts.count ∨ (max 1 (opts.count / 10)) ∣ i))) ∧
    (List.range' 1 23).filter (progressCond 23) =
      [1, 2, 4, 6, 8, 10, 12, 14, 16, 18, 20, 22, 23] := by
  obtain ⟨-, bytes, files, baseProj, evts₁, -, -, hloop, hevts, -⟩ :=
    run_ok_inv w env opts rnd sink evts out hrun
  obtain ⟨-, -, -, hevts₁⟩ :=
    genLoop_ok_inv files baseProj opts rnd sink opts.count 1 [] [] [Event.download]
      evts₁ out rfl hloop
  subst hevts
  subst hevts₁
  refine ⟨?_, by decide⟩
  intro i h1 hN
  have hstep : 0 < max 1 (opts.count / 10) := by omega
  constructor
  · intro hmem
    simp only [List.mem_append, List.mem_singleton, List.mem_cons] at hmem
    rcases hmem with (hmem | hmem) | hmem
    · exact absurd hmem (by simp)
    · simp only [genEvents, List.mem_map, List.mem_filter, List.mem_range'] at hmem
      obtain ⟨j, ⟨⟨a, ha, haj⟩, hcond⟩, hj⟩ := hmem
      have hji : j = i := by
        have := (Event.generating.injEq _ _ _ _).mp hj
        exact this.1
      subst hji
      simp only [progressCond, Bool.or_eq_true, beq_iff_eq] at hcond
      rcases hcond with (hc | hc) | hc
      · exact Or.inl hc
      · exact Or.inr (Or.inl hc)
      · exact Or.inr (Or.inr (Nat.dvd_iff_mod_eq_zero.mpr (by simpa using hc)))
    · exact absurd hmem (by simp)
  · intro hcond
    have hcond' : progressCond opts.count i = true := by
      simp only [progressCond, Bool.or_eq_true, beq_iff_eq]
      rcases hcond with hc | hc | hc
      · exact Or.inl (Or.inl hc)
      · exact Or.inl (Or.inr hc)
      · exact Or.inr (by simpa using Nat.dvd_iff_mod_eq_zero.mp hc)
    apply List.mem_append.mpr
    apply Or.inl
    apply List.mem_append.mpr
    apply Or.inr
    simp only [genEvents, List.mem_map, List.mem_filter, List.mem_range']
    exact ⟨i, ⟨⟨i - 1, by omega, by omega⟩, hcond'⟩, rfl⟩

/-- C7 witness: a concrete completed two-unit batch, instantiating the
cadence characterization at unit 1. -/
theorem c7_progress_cadence_witness :
    ∃ evts out, generateOutputsZip goodWorld envOk optsFixed2 rnd0 sinkOk =
      (evts, Except.ok out) ∧ (Event.generating 1 2 ∈ evts ↔
        (1 = 1 ∨ 1 = 2 ∨ (max 1 (2 / 10)) ∣ 1)) := by
  obtain ⟨evts, out, hrun⟩ :
      ∃ evts out, generateOutputsZip goodWorld envOk optsFixed2 rnd0 sinkOk =
        (evts, Except.ok out) := ⟨_, _, rfl⟩
  obtain ⟨hiff, -⟩ :=
    c7_progress_cadence goodWorld envOk optsFixed2 rnd0 sinkOk evts out
      (by decide) (by decide) hrun
  exact ⟨evts, out, hrun, hiff 1 (by decide) (by decide)⟩

/-- C5: every generated unit's inner archive has exactly the template's
entry names; every entry other than the descriptor entry `data.plab` is
byte-identical to the template's, and the descriptor entry holds a
re-serialized descriptor — the only entry whose content is replaced. -/
theorem c5_inner_archive_frame (w : World) (env : Env) (opts : GenOptions)
    (rnd : Nat → RandPick) (sink : Event → Bool) (evts : List Event) (out : OutMap)
    (bytes : String) (files : EntryMap)
    (hfetch : fetchTemplateBytes w env = .ok bytes)
    (hunzip : w.unzip bytes = some files)
    (hrun : generateOutputsZip w env opts rnd sink = (evts, .ok out)) :
    ∀ p ∈ out,
      p.2.map Prod.fst = files.map Prod.fst ∧
      (∀ k, k ≠ "data.plab" → objGet p.2 k = objGet files k) ∧
      (∃ j, objGet p.2 "data.plab" = some (serializeJson j)) := by
  obtain ⟨-, bytes', files', baseProj, evts₁, hfetch', hval, hloop, -, -⟩ :=
    run_ok_inv w env opts rnd sink evts out hrun
  have hb : bytes' = bytes := by
    rw [hfetch] at hfetch'
    exact (Except.ok.injEq _ _).mp hfetch'.symm
  rw [hb] at hval
  obtain ⟨hunzip', hhas, -⟩ := validate_ok_inv w bytes files' baseProj hval
  have hf : files' = files := by
    rw [hunzip] at hunzip'
    exact ((Option.some.injEq _ _).mp hunzip').symm
  rw [hf] at hloop hhas
  obtain ⟨-, -, helem, -⟩ :=
    genLoop_ok_inv files baseProj opts rnd sink opts.count 1 [] [] [Event.download]
      evts₁ out rfl hloop
  intro p hp
  rcases helem p hp with hin | ⟨j, hj⟩
  · simp at hin
  · refine ⟨?_, ?_, ?_⟩
    · rw [hj]
      exact objSet_keys files "data.plab" (serializeJson j) hhas
    · intro k hk
      rw [hj]
      exact objSet_get_ne files "data.plab" (serializeJson j) k hk
    · rw [hj]
      exact ⟨j, objSet_get_eq files "data.plab" (serializeJson j)⟩

/-- C5 witness: the inner archive of the concrete one-unit batch keeps the
template's entry names and its opaque payload entry byte-for-byte. -/
theorem c5_inner_archive_frame_witness :
    ∃ evts out, generateOutputsZip goodWorld envOk optsFixed1 rnd0 sinkOk =
      (evts, Except.ok out) ∧ ∀ p ∈ out,
        p.2.map Prod.fst = templateFiles.map Prod.fst ∧
        objGet p.2 "img0.png" = objGet templateFiles "img0.png" := by
  obtain ⟨evts, out, hrun⟩ :
      ∃ evts out, generateOutputsZip goodWorld envOk optsFixed1 rnd0 sinkOk =
        (evts, Except.ok out) := ⟨_, _, rfl⟩
  have h := c5_inner_archive_frame goodWorld envOk optsFixed1 rnd0 sinkOk evts out
    "TPLBYTES" templateFiles rfl rfl hrun
  exact ⟨evts, out, hrun, fun p hp =>
    ⟨(h p hp).1, (h p hp).2.1 "img0.png" (by decide)⟩⟩

theorem objGet_map_fst_preserving {f : String × Json → String × Json}
    (hf : ∀ p, (f p).1 = p.1) :
    ∀ (fs : List (String × Json)) (k : String),
      objGet (fs.map f) k = (objGet fs k).map (fun v => (f (k, v)).2) := by
  intro fs k
  induction fs with
  | nil => rfl
  | cons p rest ih =>
    obtain ⟨p1, p2⟩ := p
    simp only [List.map_cons, objGet]
    by_cases hp : p1 = k
    · subst hp
      rw [if_pos (hf (p1, p2)), if_pos rfl]
      simp
    · rw [if_neg (by rw [hf (p1, p2)]; exact hp), if_neg hp]
      exact ih

theorem updateIntervalsField_fst (len : Int) (p : String × Json) :
    (updateIntervalsField len p).1 = p.1 := by
  unfold updateIntervalsField
  split <;> rfl

theorem updateIntervalsField_aux (len : Int) (k : String) (v : Json)
    (hk : k = "textTextColor" ∨ k = "textTextFont") :
    (updateIntervalsField len (k, v)).2 = updateBlock len v := by
  unfold updateIntervalsField
  rw [if_pos hk]

/-- Every entry reachable by `Object.keys` of an updated block is the
update of some original entry value. -/
theorem mem_updateBlock_shape (len : Int) (block : Json) (ik : String) (iv : Json)
    (h : (ik, iv) ∈ jsEntries (updateBlock len block)) :
    ∃ iv₀, iv = updateInterval len iv₀ := by
  match block with
  | .null | .bool _ | .num _ | .str _ => simp [updateBlock, jsEntries] at h
  | .obj gs =>
    simp only [updateBlock, jsEntries, List.mem_map] at h
    obtain ⟨q, _, hq⟩ := h
    exact ⟨q.2, ((Prod.mk.injEq _ _ _ _).mp hq).2.symm⟩
  | .arr xs =>
    simp only [updateBlock, jsEntries, List.mem_map] at h
    obtain ⟨q, hqmem, hq⟩ := h
    have hq2 : q.2 ∈ xs.map (updateInterval len) := List.snd_mem_of_mem_enum hqmem
    obtain ⟨x, _, hx⟩ := List.mem_map.mp hq2
    refine ⟨x, ?_⟩
    have hiv : q.2 = iv := ((Prod.mk.injEq _ _ _ _).mp hq).2
    rw [← hiv, hx]

/-- An updated interval entry that is an object carrying the interval-end
field carries the new length there. -/
theorem updateInterval_end (len : Int) (iv₀ iv : Json) (fs : List (String × Json))
    (hupd : iv = updateInterval len iv₀) (hobj : iv = Json.obj fs)
    (hhas : objHasKey fs "textsIntervalsEnd" = true) :
    objGet fs "textsIntervalsEnd" = some (Json.num len) := by
  match iv₀ with
  | .null | .bool _ | .num _ | .str _ | .arr _ =>
    simp only [updateInterval] at hupd
    rw [hobj] at hupd
    exact absurd hupd (by intro hh; cases hh)
  | .obj gs =>
    simp only [updateInterval] at hupd
    split at hupd
    · next hg =>
      rw [hobj] at hupd
      have hfs : fs = objSetIn gs "textsIntervalsEnd" (Json.num len) :=
        (Json.obj.injEq _ _).mp hupd
      rw [hfs]
      exact objSetIn_get_eq gs _ _ hg
    · next hg =>
      rw [hobj] at hupd
      have hfs : fs = gs := (Json.obj.injEq _ _).mp hupd
      rw [hfs] at hhas
      simp only [Bool.not_eq_true] at hg
      rw [hg] at hhas
      cases hhas

/-- C1: after a layer's text is set and its intervals rewritten, every
entry found under the layer's two auxiliary maps (`textTextColor`,
`textTextFont`) that is an object carrying `textsIntervalsEnd` has that
field equal to the length of the newly assigned text; absent maps or
fields are skipped without error (the substitution is total on object
layers). -/
theorem c1_interval_end_invariant (layer layer' : Json) (newText : String)
    (h : substituteLayer layer newText = .ok layer')
    (k : String) (hk : k = "textTextColor" ∨ k = "textTextFont")
    (block : Json) (hb : jsGet layer' k = some block)
    (ik : String) (iv : Json) (hiv : (ik, iv) ∈ jsEntries block)
    (fs : List (String × Json)) (hobj : iv = Json.obj fs)
    (hhas : objHasKey fs "textsIntervalsEnd" = true) :
    objGet fs "textsIntervalsEnd" = some (Json.num (newText.length : Int)) := by
  match layer with
  | .null | .bool _ | .num _ | .str _ | .arr _ => simp [substituteLayer] at h
  | .obj lfs =>
    simp only [substituteLayer, Except.ok.injEq] at h
    have hl' : layer' =
        Json.obj ((objSet lfs "textTextString" (Json.str newText)).map
          (updateIntervalsField (newText.length : Int))) := by
      rw [← h]
      rfl
    rw [hl'] at hb
    simp only [jsGet] at hb
    rw [objGet_map_fst_preserving (updateIntervalsField_fst _)] at hb
    match hget : objGet (objSet lfs "textTextString" (Json.str newText)) k with
    | none => rw [hget] at hb; cases hb
    | some v0 =>
      rw [hget] at hb
      simp only [Option.map_some'] at hb
      have hb' : block = updateBlock (newText.length : Int) v0 := by
        rw [← (Option.some.injEq _ _).mp hb]
        exact (updateIntervalsField_aux _ k v0 hk) ▸ rfl
      rw [hb'] at hiv
      obtain ⟨iv₀, hupd⟩ := mem_updateBlock_shape _ _ _ _ hiv
      exact updateInterval_end _ iv₀ iv fs hupd hobj hhas

/-- C1 witness: substituting `"hello"` into the concrete sample layer
rewrites its interval-end field to 5. -/
theorem c1_interval_end_invariant_witness :
    objGet sampleFS "textsIntervalsEnd" = some (Json.num (("hello" : String).length : Int)) :=
  c1_interval_end_invariant sampleLayer sampleLayerSub "hello" rfl
    "textTextColor" (Or.inl rfl) sampleBlock rfl
    "0" (Json.obj sampleFS) (by simp [sampleBlock, jsEntries])
    sampleFS rfl rfl

theorem rand_mem (xs : List String) (i : Nat) (h : xs ≠ []) : rand xs i ∈ xs := by
  unfold rand
  have hlen : 0 < xs.length := List.length_pos.mpr h
  have hmod : i % xs.length < xs.length := Nat.mod_lt _ hlen
  rw [List.getD_eq_getElem _ _ hmod]
  exact xs.getElem_mem hmod

/-- C8: per unit, a fixed first name is the title-casing of the configured
value and a random one is drawn from the built-in pool unchanged; the last
name follows the same logic with the empty fixed value defaulting to
`"Ahmed"`; the full name is first + single space + last, trimmed. -/
theorem c8_record_names (opts : GenOptions) (r : RandPick) :
    (opts.firstMode = "fixed" → makeFirst opts r = titleCase opts.fixedFirst) ∧
    (opts.firstMode = "random" → makeFirst opts r ∈ FIRST_NAMES) ∧
    (opts.lastMode = "fixed" → opts.fixedLast = "" → makeLast opts r = "Ahmed") ∧
    (opts.lastMode = "fixed" → opts.fixedLast ≠ "" →
      makeLast opts r = titleCase opts.fixedLast) ∧
    (opts.lastMode = "random" → makeLast opts r ∈ LAST_NAMES) ∧
    makeFullName opts r = jsTrim (makeFirst opts r ++ " " ++ makeLast opts r) := by
  refine ⟨?_, ?_, ?_, ?_, ?_, rfl⟩
  · intro h
    simp [makeFirst, h]
  · intro h
    rw [makeFirst, if_neg (by rw [h]; decide)]
    exact rand_mem _ _ (by decide)
  · intro h1 h2
    rw [makeLast, if_pos h1, if_pos h2]
    decide
  · intro h1 h2
    rw [makeLast, if_pos h1, if_neg h2]
  · intro h
    rw [makeLast, if_neg (by rw [h]; decide)]
    exact rand_mem _ _ (by decide)

/-- C8 witness: the fixed-mode options title-case their configured
names. -/
theorem c8_record_names_witness :
    makeFirst optsFixed1 (rnd0 1) = titleCase "ahsan" ∧
    makeLast optsFixed1 (rnd0 1) = titleCase "khan" ∧
    titleCase "ahsan" = "Ahsan" ∧ titleCase "khan" = "Khan" :=
  ⟨(c8_record_names optsFixed1 (rnd0 1)).1 rfl,
   (c8_record_names optsFixed1 (rnd0 1)).2.2.2.1 rfl (by decide),
   by decide, by decide⟩

theorem toUpper_eq (c : Char) : c.toUpper =
    if c.toNat ≥ 97 ∧ c.toNat ≤ 122 then Char.ofNat (c.toNat - 32) else c := rfl

theorem toLower_eq (c : Char) : c.toLower =
    if c.toNat ≥ 65 ∧ c.toNat ≤ 90 then Char.ofNat (c.toNat + 32) else c := rfl

theorem toUpper_idem (c : Char) : (c.toUpper).toUpper = c.toUpper := by
  by_cases h : c.toNat ≥ 97 ∧ c.toNat ≤ 122
  · rw [toUpper_eq c, if_pos h, toUpper_eq]
    have hv : (Char.ofNat (c.toNat - 32)).toNat = c.toNat - 32 :=
      char_toNat_ofNat_lt (by omega)
    rw [hv, if_neg (by omega)]
  · rw [toUpper_eq c, if_neg h, toUpper_eq c, if_neg h]

theorem toLower_idem (c : Char) : (c.toLower).toLower = c.toLower := by
  by_cases h : c.toNat ≥ 65 ∧ c.toNat ≤ 90
  · rw [toLower_eq c, if_pos h, toLower_eq]
    have hv : (Char.ofNat (c.toNat + 32)).toNat = c.toNat + 32 :=
      char_toNat_ofNat_lt (by omega)
    rw [hv, if_neg (by omega)]
  · rw [toLower_eq c, if_neg h, toLower_eq c, if_neg h]

theorem jsIsWs_false_of_range (c : Char) (h1 : 65 ≤ c.toNat) (h2 : c.toNat ≤ 122) :
    jsIsWs c = false := by
  have hnot : c.toNat ∉ WS_CODES := by
    simp only [WS_CODES, List.mem_cons, List.not_mem_nil, or_false]
    omega
  simp only [jsIsWs]
  rw [← Bool.not_eq_true]
  intro hc
  exact hnot (List.elem_iff.mp hc)

theorem notWs_toUpper (c : Char) (h : jsIsWs c = false) : jsIsWs c.toUpper = false := by
  by_cases hr : c.toNat ≥ 97 ∧ c.toNat ≤ 122
  · rw [toUpper_eq c, if_pos hr]
    have hv : (Char.ofNat (c.toNat - 32)).toNat = c.toNat - 32 :=
      char_toNat_ofNat_lt (by omega)
    exact jsIsWs_false_of_range _ (by omega) (by omega)
  · rw [toUpper_eq c, if_neg hr]
    exact h

theorem notWs_toLower (c : Char) (h : jsIsWs c = false) : jsIsWs c.toLower = false := by
  by_cases hr : c.toNat ≥ 65 ∧ c.toNat ≤ 90
  · rw [toLower_eq c, if_pos hr]
    have hv : (Char.ofNat (c.toNat + 32)).toNat = c.toNat + 32 :=
      char_toNat_ofNat_lt (by omega)
    exact jsIsWs_false_of_range _ (by omega) (by omega)
  · rw [toLower_eq c, if_neg hr]
    exact h

/-- Words produced by the splitter are nonempty and whitespace-free. -/
theorem wordsAux_sound :
    ∀ (l acc : List Char), (∀ c ∈ acc, jsIsWs c = false) →
      ∀ w ∈ wordsAux l acc, w ≠ [] ∧ ∀ c ∈ w, jsIsWs c = false := by
  intro l
  induction l with
  | nil =>
    intro acc hacc w hw
    simp only [wordsAux] at hw
    split at hw
    · simp at hw
    · next hne =>
      have hw' : w = acc.reverse := by simpa using hw
      subst hw'
      exact ⟨by simpa using hne, fun c hc => hacc c (List.mem_reverse.mp hc)⟩
  | cons a rest ih =>
    intro acc hacc w hw
    simp only [wordsAux] at hw
    split at hw
    · split at hw
      · exact ih [] (by simp) w hw
      · next hne =>
        rcases List.mem_cons.mp hw with hw' | hw'
        · subst hw'
          exact ⟨by simpa using hne, fun c hc => hacc c (List.mem_reverse.mp hc)⟩
        · exact ih [] (by simp) w hw'
    · next hws =>
      refine ih (a :: acc) ?_ w hw
      intro c hc
      rcases List.mem_cons.mp hc with hc' | hc'
      · subst hc'
        simpa using hws
      · exact hacc c hc'

/-- Feeding a whitespace-free chunk into the splitter just extends the
accumulator. -/
theorem wordsAux_append_nonws :
    ∀ (w l acc : List Char), (∀ c ∈ w, jsIsWs c = false) →
      wordsAux (w ++ l) acc = wordsAux l (w.reverse ++ acc) := by
  intro w
  induction w with
  | nil => intro l acc _; simp
  | cons c w' ih =>
    intro l acc hw
    have hc : jsIsWs c = false := hw c (List.mem_cons_self _ _)
    have h1 : wordsAux ((c :: w') ++ l) acc = wordsAux (w' ++ l) (c :: acc) := by
      show wordsAux (c :: (w' ++ l)) acc = wordsAux (w' ++ l) (c :: acc)
      simp only [wordsAux, hc, Bool.false_eq_true, if_false]
    rw [h1, ih l (c :: acc) (fun d hd => hw d (List.mem_cons_of_mem _ hd))]
    simp

/-- A single nonempty whitespace-free word splits to itself. -/
theorem wordsL_word (w : List Char) (hne : w ≠ [])
    (hsp : ∀ c ∈ w, jsIsWs c = false) : wordsL w = [w] := by
  unfold wordsL
  rw [show w = w ++ [] by simp, wordsAux_append_nonws w [] [] hsp]
  simp only [wordsAux, List.append_nil]
  rw [if_neg (by simpa using hne)]
  simp

theorem jsIsWs_space : jsIsWs ' ' = true := by decide

/-- Splitting the space-joined word list recovers the word list. -/
theorem words_join :
    ∀ ws : List (List Char), (∀ w ∈ ws, w ≠ [] ∧ ∀ c ∈ w, jsIsWs c = false) →
      wordsL (joinWords ws) = ws := by
  intro ws
  induction ws with
  | nil => intro _; rfl
  | cons w tail ih =>
    intro hprops
    obtain ⟨hwne, hwsp⟩ := hprops w (List.mem_cons_self _ _)
    match tail with
    | [] => exact wordsL_word w hwne hwsp
    | v :: rest =>
      show wordsL (w ++ ' ' :: joinWords (v :: rest)) = w :: v :: rest
      unfold wordsL
      rw [wordsAux_append_nonws w (' ' :: joinWords (v :: rest)) [] hwsp]
      simp only [wordsAux, jsIsWs_space, if_true, List.append_nil]
      rw [if_neg (by simpa using hwne)]
      simp only [List.reverse_reverse]
      have := ih (fun u hu => hprops u (List.mem_cons_of_mem _ hu))
      unfold wordsL at this
      rw [this]

theorem joinWords_ne_nil (ws : List (List Char)) (hne : ws ≠ [])
    (hw : ∀ w ∈ ws, w ≠ []) : joinWords ws ≠ [] := by
  match ws with
  | [] => exact absurd rfl hne
  | [w] => exact hw w (List.mem_cons_self _ _)
  | w :: v :: rest =>
    show w ++ ' ' :: joinWords (v :: rest) ≠ []
    simp [hw w (List.mem_cons_self _ _)]

/-- The first character of a space-joined word list is not whitespace. -/
theorem joinWords_head (ws : List (List Char))
    (hprops : ∀ w ∈ ws, w ≠ [] ∧ ∀ c ∈ w, jsIsWs c = false) :
    ∀ c t, joinWords ws = c :: t → jsIsWs c = false := by
  intro c t hj
  match ws with
  | [] => cases hj
  | [w] =>
    obtain ⟨hne, hsp⟩ := hprops w (List.mem_cons_self _ _)
    exact hsp c (by rw [show joinWords [w] = w from rfl] at hj; rw [hj]; exact List.mem_cons_self _ _)
  | w :: v :: rest =>
    obtain ⟨hne, hsp⟩ := hprops w (List.mem_cons_self _ _)
    have hj' : w ++ ' ' :: joinWords (v :: rest) = c :: t := hj
    match w with
    | [] => exact absurd rfl hne
    | a :: w' =>
      have : a = c := by simpa using congrArg (fun l => l.head?) hj'
      exact this ▸ hsp a (List.mem_cons_self _ _)

/-- The last character of a space-joined word list is not whitespace. -/
theorem joinWords_last (ws : List (List Char))
    (hprops : ∀ w ∈ ws, w ≠ [] ∧ ∀ c ∈ w, jsIsWs c = false) :
    ∀ c t, (joinWords ws).reverse = c :: t → jsIsWs c = false := by
  induction ws with
  | nil => intro c t h; cases h
  | cons w tail ih =>
    intro c t h
    obtain ⟨hne, hsp⟩ := hprops w (List.mem_cons_self _ _)
    match tail with
    | [] =>
      have hc : c ∈ w := by
        have : c ∈ w.reverse := by
          rw [show (joinWords [w]).reverse = w.reverse from rfl] at h
          rw [h]
          exact List.mem_cons_self _ _
        exact List.mem_reverse.mp this
      exact hsp c hc
    | v :: rest =>
      have hJ : joinWords (w :: v :: rest) = w ++ ' ' :: joinWords (v :: rest) := rfl
      rw [hJ] at h
      have hrev : (w ++ ' ' :: joinWords (v :: rest)).reverse =
          (joinWords (v :: rest)).reverse ++ ' ' :: w.reverse := by
        simp
      rw [hrev] at h
      have hJne : joinWords (v :: rest) ≠ [] :=
        joinWords_ne_nil (v :: rest) (by simp)
          (fun u hu => (hprops u (List.mem_cons_of_mem _ hu)).1)
      match hrw : (joinWords (v :: rest)).reverse with
      | [] => exact absurd (by simpa using hrw) hJne
      | d :: s =>
        rw [hrw] at h
        have hcd : d = c := by simpa using congrArg (fun l => l.head?) h
        exact hcd ▸ ih (fun u hu => hprops u (List.mem_cons_of_mem _ hu)) d s hrw

/-- A list whose first and last characters are not whitespace is its own
trim. -/
theorem trimL_eq_self (l : List Char)
    (h1 : ∀ c t, l = c :: t → jsIsWs c = false)
    (h2 : ∀ c t, l.reverse = c :: t → jsIsWs c = false) : trimL l = l := by
  match l with
  | [] => rfl
  | a :: t =>
    unfold trimL
    rw [List.dropWhile_cons, if_neg (by rw [h1 a t rfl]; simp)]
    match hr : (a :: t).reverse with
    | [] =>
      rw [List.reverse_eq_nil_iff] at hr
      cases hr
    | d :: s =>
      rw [List.dropWhile_cons, if_neg (by rw [h2 d s hr]; simp)]
      rw [← hr, List.reverse_reverse]

theorem jsUpperCharL_ne_nil (c : Char) : jsUpperCharL c ≠ [] := by
  unfold jsUpperCharL
  split <;> simp

theorem jsUpperCharL_nonws (c : Char) (h : jsIsWs c = false) :
    ∀ x ∈ jsUpperCharL c, jsIsWs x = false := by
  unfold jsUpperCharL
  split
  · intro x hx
    rcases List.mem_cons.mp hx with hx' | hx'
    · subst hx'; decide
    · have : x = 'S' := by simpa using hx'
      subst this; decide
  · intro x hx
    have : x = c.toUpper := by simpa using hx
    subst this
    exact notWs_toUpper c h

theorem jsLowerCharL_nonws (c : Char) (h : jsIsWs c = false) :
    ∀ x ∈ jsLowerCharL c, jsIsWs x = false := by
  unfold jsLowerCharL
  split
  · intro x hx
    rcases List.mem_cons.mp hx with hx' | hx'
    · subst hx'; decide
    · have : x = '̇' := by simpa using hx'
      subst this; decide
  · intro x hx
    have : x = c.toLower := by simpa using hx
    subst this
    exact notWs_toLower c h

theorem capWordL_ne_nil (w : List Char) (h : w ≠ []) : capWordL w ≠ [] := by
  match w with
  | [] => exact absurd rfl h
  | c :: rest =>
    show jsUpperCharL c ++ (rest.map jsLowerCharL).flatten ≠ []
    simp [jsUpperCharL_ne_nil c]

theorem capWordL_nonws (w : List Char) (h : ∀ c ∈ w, jsIsWs c = false) :
    ∀ c ∈ capWordL w, jsIsWs c = false := by
  match w with
  | [] => simp [capWordL]
  | a :: rest =>
    intro c hc
    rcases List.mem_append.mp hc with hc' | hc'
    · exact jsUpperCharL_nonws a (h a (List.mem_cons_self _ _)) c hc'
    · obtain ⟨l, hl, hcl⟩ := List.mem_flatten.mp hc'
      obtain ⟨d, hd, hdl⟩ := List.mem_map.mp hl
      subst hdl
      exact jsLowerCharL_nonws d (h d (List.mem_cons_of_mem _ hd)) c hcl

theorem ascii_toUpper (c : Char) (h : c.toNat < 128) : c.toUpper.toNat < 128 := by
  rw [toUpper_eq]
  split
  · next hr =>
    rw [char_toNat_ofNat_lt (by omega)]
    omega
  · exact h

theorem ascii_toLower (c : Char) (h : c.toNat < 128) : c.toLower.toNat < 128 := by
  rw [toLower_eq]
  split
  · next hr =>
    rw [char_toNat_ofNat_lt (by omega)]
    omega
  · exact h

theorem jsUpperCharL_ascii (c : Char) (h : c.toNat < 128) :
    jsUpperCharL c = [c.toUpper] := by
  unfold jsUpperCharL
  rw [if_neg]
  intro hc
  subst hc
  exact absurd h (by decide)

theorem jsLowerCharL_ascii (c : Char) (h : c.toNat < 128) :
    jsLowerCharL c = [c.toLower] := by
  unfold jsLowerCharL
  rw [if_neg]
  intro hc
  subst hc
  exact absurd h (by decide)

theorem flatten_lower_ascii (rest : List Char) (h : ∀ c ∈ rest, c.toNat < 128) :
    (rest.map jsLowerCharL).flatten = rest.map Char.toLower := by
  induction rest with
  | nil => rfl
  | cons d t ih =>
    simp only [List.map_cons, List.flatten_cons,
      jsLowerCharL_ascii d (h d (List.mem_cons_self _ _))]
    rw [ih (fun c hc => h c (List.mem_cons_of_mem _ hc))]
    rfl

/-- On an all-ASCII word the JS case conversions are the single-character
ASCII maps. -/
theorem capWordL_ascii_eq (w : List Char) (h : ∀ c ∈ w, c.toNat < 128) :
    capWordL w = match w with
      | [] => []
      | c :: rest => c.toUpper :: rest.map Char.toLower := by
  match w with
  | [] => rfl
  | c :: rest =>
    show jsUpperCharL c ++ (rest.map jsLowerCharL).flatten = _
    rw [jsUpperCharL_ascii c (h c (List.mem_cons_self _ _)),
      flatten_lower_ascii rest (fun d hd => h d (List.mem_cons_of_mem _ hd))]
    rfl

theorem capWordL_ascii_chars (w : List Char) (h : ∀ c ∈ w, c.toNat < 128) :
    ∀ c ∈ capWordL w, c.toNat < 128 := by
  rw [capWordL_ascii_eq w h]
  match w with
  | [] => simp
  | a :: rest =>
    intro c hc
    rcases List.mem_cons.mp hc with hc' | hc'
    · subst hc'
      exact ascii_toUpper a (h a (List.mem_cons_self _ _))
    · obtain ⟨d, hd, hdc⟩ := List.mem_map.mp hc'
      subst hdc
      exact ascii_toLower d (h d (List.mem_cons_of_mem _ hd))

/-- Title-casing one all-ASCII word is idempotent.  (It is not idempotent
in general: `capWordL ['ß'] = ['S', 'S']` but `capWordL ['S', 'S'] =
['S', 's']`.) -/
theorem capWordL_idem_ascii (w : List Char) (h : ∀ c ∈ w, c.toNat < 128) :
    capWordL (capWordL w) = capWordL w := by
  match w with
  | [] => rfl
  | c :: rest =>
    have hceq : capWordL (c :: rest) = c.toUpper :: rest.map Char.toLower :=
      capWordL_ascii_eq (c :: rest) h
    have h2 : ∀ x ∈ c.toUpper :: rest.map Char.toLower, x.toNat < 128 := by
      rw [← hceq]
      exact capWordL_ascii_chars (c :: rest) h
    rw [hceq, capWordL_ascii_eq _ h2]
    show c.toUpper.toUpper :: (rest.map Char.toLower).map Char.toLower =
      c.toUpper :: rest.map Char.toLower
    rw [toUpper_idem, List.map_map]
    exact congrArg (fun x => c.toUpper :: x)
      (List.map_congr_left fun a _ => toLower_idem a)

theorem dropWhile_head_not {p : Char → Bool} :
    ∀ (l : List Char) (c : Char) (t : List Char),
      l.dropWhile p = c :: t → p c = false := by
  intro l
  induction l with
  | nil => intro c t h; cases h
  | cons a rest ih =>
    intro c t h
    rw [List.dropWhile_cons] at h
    split at h
    · exact ih c t h
    · next hp =>
      have : a = c := by simpa using congrArg (fun l => l.head?) h
      subst this
      simpa using hp

/-- A nonempty splitter result exists as soon as the input has a
non-whitespace character (or the accumulator is nonempty). -/
theorem wordsAux_ne_nil :
    ∀ (l acc : List Char), ((∃ c ∈ l, jsIsWs c = false) ∨ acc ≠ []) →
      wordsAux l acc ≠ [] := by
  intro l
  induction l with
  | nil =>
    intro acc h
    rcases h with ⟨c, hc, _⟩ | h
    · simp at hc
    · simp only [wordsAux]
      rw [if_neg h]
      simp
  | cons a rest ih =>
    intro acc h
    simp only [wordsAux]
    by_cases hws : jsIsWs a
    · rw [if_pos hws]
      by_cases hacc : acc = []
      · rw [if_pos hacc]
        apply ih
        left
        rcases h with ⟨c, hc, hcws⟩ | h
        · rcases List.mem_cons.mp hc with hc' | hc'
          · exact absurd hws (by rw [hc'] at hcws; simp [hcws])
          · exact ⟨c, hc', hcws⟩
        · exact absurd hacc (by simpa using h)
      · rw [if_neg hacc]
        simp
    · rw [if_neg hws]
      apply ih
      right
      simp

theorem mem_of_mem_dropWhile {p : Char → Bool} :
    ∀ {l : List Char} {c : Char}, c ∈ l.dropWhile p → c ∈ l := by
  intro l
  induction l with
  | nil => intro c h; simp at h
  | cons a t ih =>
    intro c h
    rw [List.dropWhile_cons] at h
    split at h
    · exact List.mem_cons_of_mem _ (ih h)
    · exact h

theorem trimL_subset (l : List Char) (c : Char) (h : c ∈ trimL l) : c ∈ l := by
  unfold trimL at h
  rw [List.mem_reverse] at h
  have h1 := mem_of_mem_dropWhile h
  rw [List.mem_reverse] at h1
  exact mem_of_mem_dropWhile h1

/-- Every character of a split word comes from the input or the
accumulator. -/
theorem wordsAux_chars :
    ∀ (l acc : List Char), ∀ w ∈ wordsAux l acc, ∀ c ∈ w, c ∈ l ∨ c ∈ acc := by
  intro l
  induction l with
  | nil =>
    intro acc w hw c hc
    simp only [wordsAux] at hw
    split at hw
    · simp at hw
    · have hw' : w = acc.reverse := by simpa using hw
      subst hw'
      exact Or.inr (List.mem_reverse.mp hc)
  | cons a rest ih =>
    intro acc w hw c hc
    simp only [wordsAux] at hw
    split at hw
    · split at hw
      · rcases ih [] w hw c hc with h | h
        · exact Or.inl (List.mem_cons_of_mem _ h)
        · simp at h
      · rcases List.mem_cons.mp hw with hw' | hw'
        · subst hw'
          exact Or.inr (List.mem_reverse.mp hc)
        · rcases ih [] w hw' c hc with h | h
          · exact Or.inl (List.mem_cons_of_mem _ h)
          · simp at h
    · rcases ih (a :: acc) w hw c hc with h | h
      · exact Or.inl (List.mem_cons_of_mem _ h)
      · rcases List.mem_cons.mp h with h' | h'
        · subst h'
          exact Or.inl (List.mem_cons_self _ _)
        · exact Or.inr h'

/-- C10 (corrected): `titleCase` is idempotent on every string all of
whose characters are ASCII — in particular on everything the name pools
and the wizard's examples contain — so for such fixed names the value
title-cased once by the conversation wizard and again by the record
generator equals a single application, and the name confirmed to the
operator is the name substituted into each unit.  Idempotence does not
hold for every string: JS `toUpperCase` expands some characters
(`titleCase("ß") = "SS"` but `titleCase("SS") = "Ss"`). -/
theorem c10_titleCase_idempotent_ascii (s : String)
    (hascii : ∀ c ∈ s.data, c.toNat < 128) :
    titleCase (titleCase s) = titleCase s := by
  by_cases ht : jsTrim s = ""
  · have h1 : titleCase s = "" := by simp [titleCase, ht]
    rw [h1]
    rfl
  · have hTs : titleCase s =
        String.mk (joinWords ((wordsL (jsTrim s).data).map capWordL)) := by
      simp [titleCase, ht]
    have hwords := wordsAux_sound (jsTrim s).data [] (by simp)
    have hprops : ∀ w ∈ (wordsL (jsTrim s).data).map capWordL,
        w ≠ [] ∧ ∀ c ∈ w, jsIsWs c = false := by
      intro w hw
      obtain ⟨u, hu, huw⟩ := List.mem_map.mp hw
      obtain ⟨hune, husp⟩ := hwords u hu
      exact huw ▸ ⟨capWordL_ne_nil u hune, capWordL_nonws u husp⟩
    have hne0 : wordsL (jsTrim s).data ≠ [] := by
      have htd : (jsTrim s).data ≠ [] := by
        intro hh
        exact ht (show jsTrim s = "" from congrArg String.mk hh)
      have htrim_eq : (jsTrim s).data = trimL s.data := rfl
      rw [htrim_eq] at htd ⊢
      unfold trimL at htd ⊢
      obtain ⟨c, t, hX⟩ : ∃ c t,
          (s.data.dropWhile jsIsWs).reverse.dropWhile jsIsWs = c :: t := by
        match hM : (s.data.dropWhile jsIsWs).reverse.dropWhile jsIsWs with
        | [] =>
          rw [hM] at htd
          simp at htd
        | c :: t => exact ⟨c, t, rfl⟩
      have hc : jsIsWs c = false := dropWhile_head_not _ c t hX
      have hcm : c ∈ (c :: t).reverse := by
        rw [List.mem_reverse]
        exact List.mem_cons_self _ _
      rw [hX]
      exact wordsAux_ne_nil _ [] (Or.inl ⟨c, hcm, hc⟩)
    have hne1 : (wordsL (jsTrim s).data).map capWordL ≠ [] := by
      intro hh
      exact hne0 (List.map_eq_nil_iff.mp hh)
    rw [hTs]
    have hhead := joinWords_head _ hprops
    have hlast := joinWords_last _ hprops
    have htrim : trimL (joinWords ((wordsL (jsTrim s).data).map capWordL)) =
        joinWords ((wordsL (jsTrim s).data).map capWordL) :=
      trimL_eq_self _ hhead hlast
    have hrt : jsTrim (String.mk (joinWords ((wordsL (jsTrim s).data).map capWordL))) =
        String.mk (joinWords ((wordsL (jsTrim s).data).map capWordL)) := by
      show String.mk (trimL (joinWords ((wordsL (jsTrim s).data).map capWordL))) = _
      rw [htrim]
    have hrne : String.mk (joinWords ((wordsL (jsTrim s).data).map capWordL)) ≠ "" := by
      intro hh
      exact joinWords_ne_nil _ hne1 (fun w hw => (hprops w hw).1) (mk_inj hh)
    have hstep : titleCase (String.mk (joinWords ((wordsL (jsTrim s).data).map capWordL))) =
        String.mk (joinWords ((wordsL
          (String.mk (joinWords ((wordsL (jsTrim s).data).map capWordL))).data).map capWordL)) := by
      simp only [titleCase, hrt]
      rw [if_neg hrne]
    rw [hstep]
    have hdata : (String.mk (joinWords ((wordsL (jsTrim s).data).map capWordL))).data =
        joinWords ((wordsL (jsTrim s).data).map capWordL) := rfl
    rw [hdata, words_join _ hprops]
    have hacw : ∀ u ∈ wordsL (jsTrim s).data, ∀ c ∈ u, c.toNat < 128 := by
      intro u hu c hc
      rcases wordsAux_chars (jsTrim s).data [] u hu c hc with h | h
      · exact hascii c (trimL_subset s.data c h)
      · simp at h
    have hcap : ((wordsL (jsTrim s).data).map capWordL).map capWordL =
        (wordsL (jsTrim s).data).map capWordL := by
      rw [List.map_map]
      exact List.map_congr_left fun a ha => capWordL_idem_ascii a (hacw a ha)
    rw [hcap]

/-- C10 witness: idempotence holds at a concrete ASCII name with mixed
case and internal whitespace. -/
theorem c10_titleCase_idempotent_ascii_witness :
    (∀ c ∈ ("dr. ahsan  KHAN" : String).data, c.toNat < 128) ∧
    titleCase (titleCase "dr. ahsan  KHAN") = titleCase "dr. ahsan  KHAN" :=
  ⟨by decide, c10_titleCase_idempotent_ascii "dr. ahsan  KHAN" (by decide)⟩

/-- C10 counterexample: `titleCase` is not idempotent for every string —
JS `toUpperCase` expands `'ß'` to `"SS"`, so `titleCase("ß") = "SS"`
while a second application gives `"Ss"`. -/
theorem c10_titleCase_counterexample :
    titleCase "ß" = "SS" ∧ titleCase (titleCase "ß") = "Ss" ∧
    titleCase (titleCase "ß") ≠ titleCase "ß" :=
  ⟨by decide, by decide, by decide⟩

end Worker
